import Mathlib

/-!
# ThreadPool: fixed-size worker threads and a synchronized task queue

A shallow embedding of `include/thread_pool.h` and `src/thread_pool.cpp`.

The class members `stop_`, `tasks_` and `workers_` are the fields of `ThreadPool`.
Every access to `stop_` and `tasks_` in the source happens inside a critical
section of the mutex `mu_`, so each critical section is one atomic transition
of the model and a concurrent execution is an interleaving of transitions
(`run`).  A worker thread is represented by its position in `worker_loop`.

The constructor is evaluated against the limits of the host (`Limits`): `max_size()`
of the worker vector, the storage `reserve` can obtain, and the number of threads
that can be started.

The call `job()` is one transition as well: it runs outside the lock, and its
observable effect is the completion of the packaged task; the task bodies of the
repository touch shared memory only through a single atomic `fetch_add`.

The C++ standard library objects the source relies on are modelled by their
standard contract: the shared state of a `std::packaged_task` / `std::future`
pair is a one-shot cell (`FutureState`), invoking the packaged task stores the
value returned or the exception thrown by the wrapped callable in that cell,
and `std::future::get` returns the value or rethrows the stored exception.
-/

namespace TP

/-! ## Data model -/

/-- An exception object thrown by a task body: its dynamic type and `what()`. -/
structure Failure where
  kind : String
  message : String
deriving DecidableEq, Repr

/-- Values returned by the callables used in the repository (`void`, integers). -/
inductive Val where
  | unit
  | int (n : Int)
deriving DecidableEq, Repr

/-- How a call of a callable ends: it returns normally or it throws. -/
inductive Outcome where
  | value (v : Val)
  | failure (e : Failure)
deriving DecidableEq, Repr

/-- A nullary callable `R()`.  The parameter `σ` is the memory that task bodies
capture by reference (for instance the atomic counters of the stress test); a
call may update it and either returns or throws. -/
abbrev Callable (σ : Type) := σ → σ × Outcome

/-- Shared state of a `std::packaged_task<R()>` and its `std::future<R>`. -/
inductive FutureState where
  | pending
  | ready (o : Outcome)
deriving DecidableEq, Repr

/-- An element of `tasks_`: the closure `[task_ptr]() { (*task_ptr)(); }`.
`hid` identifies the shared state owned by `task_ptr`, `bound` is the callable
stored in the packaged task. -/
structure Task (σ : Type) where
  hid : Nat
  bound : Callable σ

/-- Position of one worker thread inside `worker_loop`.  `crashed` stands for
an exception or undefined behaviour escaping the loop body. -/
inductive Worker (σ : Type) where
  | waiting
  | running (job : Task σ)
  | exited
  | crashed

/-- The data members of `class ThreadPool`. -/
structure ThreadPool (σ : Type) where
  stop_ : Bool
  tasks_ : List (Task σ)
  workers_ : List (Worker σ)

/-- Exceptions thrown by the pool itself or by the library calls it makes:
`std::invalid_argument` and `std::runtime_error` with their `what()` text,
`std::length_error` and `std::bad_alloc` from `workers_.reserve`, and
`std::system_error` from the constructor of `std::thread`. -/
inductive PoolError where
  | invalid_argument (what : String)
  | runtime_error (what : String)
  | length_error
  | bad_alloc
  | system_error
deriving DecidableEq, Repr

/-- How a construction that yields no pool ends: an exception reaches the caller, or
`std::terminate` is called. -/
inductive ConstructionFailure where
  | threw (e : PoolError)
  | terminate
deriving DecidableEq, Repr

/-- Largest value of `std::size_t` (64 bits). -/
def SIZE_MAX : Nat := 18446744073709551615

/-- What the host grants a constructor call: `max_size()` of the vector `workers_` (a
`size_type`, hence at most `SIZE_MAX`), the number of elements the allocator can
provide for `reserve`, and the number of threads that can still be started. -/
structure Limits where
  max_size : Nat
  alloc_slots : Nat
  thread_slots : Nat
  max_size_le : max_size ≤ SIZE_MAX

/-- A 64-bit host: `max_size()` is `PTRDIFF_MAX / sizeof(std::thread)` with an 8-byte
`std::thread`; storage for 2^20 thread objects and 4096 threads are available. -/
def hostLimits : Limits :=
  { max_size := 1152921504606846975, alloc_slots := 1048576, thread_slots := 4096,
    max_size_le := by decide }

/-- A pool together with its surroundings: the shared states of the futures
handed out so far (indexed by `Task.hid`), the memory captured by task bodies,
and three history logs that record, in order, the tasks appended to `tasks_`,
the tasks popped from `tasks_`, and the tasks whose `job()` call has finished.
The logs are never read by any transition. -/
structure System (σ : Type) where
  pool : ThreadPool σ
  futures : List FutureState
  env : σ
  submitted : List (Task σ)
  dequeued : List (Task σ)
  executed : List (Task σ)

/-! ## Construction (`ThreadPool::ThreadPool`) -/

/-- The loop `for (i = 0; i < num_threads; i++) workers_.emplace_back(...)`,
with `k = num_threads - i` iterations left.  The second component counts the
threads started.  `emplace_back` constructs a `std::thread`, which throws
`std::system_error` when no further thread can be started: the loop is then left
with `none`. -/
def spawnWorkers {σ : Type} (thread_slots : Nat) :
    Nat → List (Worker σ) × Nat → Option (List (Worker σ)) × Nat
  | 0, (ws, started) => (some ws, started)
  | k + 1, (ws, started) =>
    if started < thread_slots then
      spawnWorkers thread_slots k (ws ++ [Worker.waiting], started + 1)
    else
      (none, started)

/-- The constructor, for a `std::size_t` argument `num_threads`.  Returns the pool or
the way construction failed, and the number of worker threads that were started.
`workers_.reserve(num_threads)` throws `std::length_error` above `max_size()` and
`std::bad_alloc` when the storage cannot be allocated.  When a `std::thread` cannot
be started the exception leaves the constructor and `workers_` is destroyed: with no
thread started yet the exception reaches the caller, otherwise destroying a joinable
`std::thread` calls `std::terminate`. -/
def ThreadPool.create {σ : Type} (L : Limits) (num_threads : Nat) :
    Except ConstructionFailure (ThreadPool σ) × Nat :=
  if num_threads == 0 then
    (Except.error (ConstructionFailure.threw
      (PoolError.invalid_argument "ThreadPool: num_threads must be > 0")), 0)
  else if L.max_size < num_threads then
    (Except.error (ConstructionFailure.threw PoolError.length_error), 0)
  else if L.alloc_slots < num_threads then
    (Except.error (ConstructionFailure.threw PoolError.bad_alloc), 0)
  else
    match spawnWorkers L.thread_slots num_threads ([], 0) with
    | (some ws, started) =>
      (Except.ok { stop_ := false, tasks_ := [], workers_ := ws }, started)
    | (none, 0) => (Except.error (ConstructionFailure.threw PoolError.system_error), 0)
    | (none, started) => (Except.error ConstructionFailure.terminate, started)

/-- The member function `size() const noexcept`. -/
def ThreadPool.size {σ : Type} (p : ThreadPool σ) : Nat :=
  p.workers_.length

/-- State right after a successful construction. -/
def System.boot {σ : Type} (p : ThreadPool σ) (env : σ) : System σ :=
  { pool := p, futures := [], env := env, submitted := [], dequeued := [], executed := [] }

/-! ## Submission (`ThreadPool::submit`) -/

/-- The function template `submit(f, args...)`.  The result is the exception thrown or
the identity of the future returned.  The packaged task and its shared state are
created before the lock is taken; when `submit` throws they are destroyed again, so
the state is left as it was. -/
def submit {σ A : Type} (f : A → Callable σ) (args : A) (s : System σ) :
    Except PoolError Nat × System σ :=
  let bound : Callable σ := fun e => f args e
  let task_ptr := s.futures.length
  if s.pool.stop_ then
    (Except.error (PoolError.runtime_error "submit() on stopped ThreadPool"), s)
  else
    let job : Task σ := { hid := task_ptr, bound := bound }
    (Except.ok task_ptr,
      { s with
        pool := { s.pool with tasks_ := s.pool.tasks_ ++ [job] }
        futures := s.futures ++ [FutureState.pending]
        submitted := s.submitted ++ [job] })

/-- Result of `std::future::get`: `none` while the caller is still blocked. -/
def FutureState.get : FutureState → Option (Except Failure Val)
  | FutureState.pending => none
  | FutureState.ready (Outcome.value v) => some (Except.ok v)
  | FutureState.ready (Outcome.failure e) => some (Except.error e)

/-- Calling `Get` on the handle `h`. -/
def System.Get {σ : Type} (s : System σ) (h : Nat) : Option (Except Failure Val) :=
  match s.futures[h]? with
  | some fs => fs.get
  | none => none

/-! ## The worker loop (`ThreadPool::worker_loop`) -/

/-- What the critical section of `worker_loop` yields. -/
inductive Dequeue (σ : Type) where
  | blocked
  | terminate
  | job (t : Task σ)
  | undefined

/-- The predicate of `cv_.wait`: `[this]() { return stop_ || !tasks_.empty(); }`. -/
def wakeCondition {σ : Type} (p : ThreadPool σ) : Bool :=
  p.stop_ || !p.tasks_.isEmpty

/-- The critical section of `worker_loop`: the wait predicate, the exit test,
then `front()` and `pop_front()`.  A worker whose predicate is false stays
blocked in `wait`; `undefined` is `front()` on an empty deque. -/
def worker_loop_dequeue {σ : Type} (p : ThreadPool σ) : Dequeue σ × ThreadPool σ :=
  if !(wakeCondition p) then
    (Dequeue.blocked, p)
  else if p.stop_ && p.tasks_.isEmpty then
    (Dequeue.terminate, p)
  else
    match p.tasks_ with
    | [] => (Dequeue.undefined, p)
    | t :: rest => (Dequeue.job t, { p with tasks_ := rest })

/-- The call `job()`, that is `(*task_ptr)()`: runs the bound callable and stores
its outcome in the shared state.  `none` is the `std::future_error` thrown when
the shared state is missing or already satisfied. -/
def invokeJob {σ : Type} (t : Task σ) (futures : List FutureState) (env : σ) :
    Option (List FutureState × σ) :=
  match futures[t.hid]? with
  | some FutureState.pending =>
    let r := t.bound env
    some (futures.set t.hid (FutureState.ready r.2), r.1)
  | _ => none

/-- Worker `i` passes through the critical section once. -/
def workerDequeue {σ : Type} (i : Nat) (s : System σ) : System σ :=
  match s.pool.workers_[i]? with
  | some Worker.waiting =>
    match worker_loop_dequeue s.pool with
    | (Dequeue.blocked, _) => s
    | (Dequeue.terminate, p) =>
      { s with pool := { p with workers_ := p.workers_.set i Worker.exited } }
    | (Dequeue.job t, p) =>
      { s with
        pool := { p with workers_ := p.workers_.set i (Worker.running t) }
        dequeued := s.dequeued ++ [t] }
    | (Dequeue.undefined, p) =>
      { s with pool := { p with workers_ := p.workers_.set i Worker.crashed } }
  | _ => s

/-- Worker `i` executes the job it holds, outside the lock, and loops. -/
def workerRun {σ : Type} (i : Nat) (s : System σ) : System σ :=
  match s.pool.workers_[i]? with
  | some (Worker.running t) =>
    match invokeJob t s.futures s.env with
    | some (futures, env) =>
      { s with
        pool := { s.pool with workers_ := s.pool.workers_.set i Worker.waiting }
        futures := futures
        env := env
        executed := s.executed ++ [t] }
    | none =>
      { s with pool := { s.pool with workers_ := s.pool.workers_.set i Worker.crashed } }
  | _ => s

/-! ## Shutdown (`ThreadPool::~ThreadPool`) -/

/-- First block of the destructor: `stop_ = true` under the lock. -/
def signalStop {σ : Type} (s : System σ) : System σ :=
  { s with pool := { s.pool with stop_ := true } }

/-- The destructor returns once every `join()` has returned. -/
def allExited {σ : Type} : List (Worker σ) → Bool
  | [] => true
  | Worker.exited :: ws => allExited ws
  | _ :: _ => false

/-! ## Interleavings -/

/-- One atomic transition of the system. -/
inductive Action (σ : Type) : Type 1 where
  | submit (A : Type) (f : A → Callable σ) (args : A)
  | workerDequeue (i : Nat)
  | workerRun (i : Nat)
  | signalStop
  | size

/-- Effect of one transition on the state.  `size()` is a `const` member that only
reads `workers_`, so a query leaves the state as it is. -/
def step {σ : Type} (s : System σ) : Action σ → System σ
  | Action.submit _ f args => (submit f args s).2
  | Action.workerDequeue i => workerDequeue i s
  | Action.workerRun i => workerRun i s
  | Action.signalStop => signalStop s
  | Action.size => s

/-- Effect of an interleaving. -/
def run {σ : Type} (s : System σ) : List (Action σ) → System σ
  | [] => s
  | a :: rest => run (step s a) rest

/-- Jobs currently held by workers (dequeued, `job()` not yet finished). -/
def inflight {σ : Type} : List (Worker σ) → List (Task σ)
  | [] => []
  | Worker.running t :: ws => t :: inflight ws
  | _ :: ws => inflight ws

/-! ## The callables of `tests/stress_test.cpp` -/

/-- Value of a 64-bit two's complement integer after an arithmetic step. -/
def wrap64 (x : Int) : Int :=
  (x + 9223372036854775808) % 18446744073709551616 - 9223372036854775808

/-- Value of a 32-bit two's complement integer after an arithmetic step. -/
def wrap32 (x : Int) : Int :=
  (x + 2147483648) % 4294967296 - 2147483648

/-- The two counters `std::atomic<std::int64_t> sum` and `checksum` of `main`. -/
structure TestEnv where
  sum : Int
  checksum : Int
deriving DecidableEq, Repr

/-- Test 1: `[&sum]() { sum.fetch_add(1, std::memory_order_relaxed); }`. -/
def incrementTask : Unit → Callable TestEnv :=
  fun _ e => ({ e with sum := wrap64 (e.sum + 1) }, Outcome.value Val.unit)

/-- Test 2: `[](int a, int b) { return a + b; }`. -/
def add {σ : Type} : Int × Int → Callable σ :=
  fun ab e => (e, Outcome.value (Val.int (wrap32 (ab.1 + ab.2))))

/-- Test 3: `[]() -> int { throw std::runtime_error("boom"); }`. -/
def boom {σ : Type} : Unit → Callable σ :=
  fun _ e => (e, Outcome.failure { kind := "std::runtime_error", message := "boom" })

/-- Test 4: the loop `for (int k = 1; k <= work; k++) local += k;`. -/
def localSum (work : Int) : Int :=
  (List.range work.toNat).foldl (fun acc k => wrap64 (acc + ((k : Int) + 1))) 0

/-- Test 4: the lambda capturing `work`, `slp` and `&checksum`.  Sleeping has no
effect on the state. -/
def checksumTask (work slp : Int) : Unit → Callable TestEnv :=
  fun _ e =>
    let loc := localSum work
    let _ := slp
    ({ e with checksum := wrap64 (e.checksum + loc) }, Outcome.value (Val.int loc))

/-- The loop `for (auto& f : futs2) expected += f.get();` over ready futures. -/
def sumResults : List FutureState → Int
  | [] => 0
  | FutureState.ready (Outcome.value (Val.int v)) :: fs => v + sumResults fs
  | _ :: fs => sumResults fs

/-- The integer a task outcome carries (0 when it carries none). -/
def intResult : Outcome → Int
  | Outcome.value (Val.int v) => v
  | _ => 0

/-- Test 1 on the pool with two workers, with two increment tasks: both are submitted,
each worker takes one, and both run. -/
def counterTrace : List (Action TestEnv) :=
  [Action.submit _ incrementTask (), Action.submit _ incrementTask (),
   Action.workerDequeue 0, Action.workerDequeue 1, Action.workerRun 1, Action.workerRun 0]

/-- Test 4 on the pool with two workers, with two checksum tasks (`work` 3 and 4). -/
def checksumTrace : List (Action TestEnv) :=
  [Action.submit _ (checksumTask 3 0) (), Action.workerDequeue 1,
   Action.submit _ (checksumTask 4 1) (), Action.workerDequeue 0,
   Action.workerRun 0, Action.workerRun 1]

/-- The range of `std::int64_t`. -/
def inInt64 (x : Int) : Prop :=
  -9223372036854775808 ≤ x ∧ x < 9223372036854775808

instance (x : Int) : Decidable (inInt64 x) :=
  inferInstanceAs (Decidable (_ ∧ _))

/-- Every handle handed out so far is ready (`Get` would not block). -/
def allReady {σ : Type} (s : System σ) : Prop :=
  ∀ h, h < s.futures.length → (s.Get h).isSome = true

instance {σ : Type} (s : System σ) : Decidable (allReady s) :=
  inferInstanceAs (Decidable (∀ h, h < s.futures.length → (s.Get h).isSome = true))

/-- The pool that `ThreadPool pool(2)` builds on a host that grants two threads (`main`
uses at least two threads). -/
def pool2 (σ : Type) : ThreadPool σ :=
  { stop_ := false, tasks_ := [], workers_ := [Worker.waiting, Worker.waiting] }

/-- Initial memory of `main`: `sum{0}` and `checksum{0}`. -/
def env0 : TestEnv :=
  { sum := 0, checksum := 0 }

/-- A complete life of the pool with two workers: two tasks are submitted, stop is
signalled while both are still queued, each worker takes one task and runs it, then
both workers find the queue empty and leave. -/
def drainTrace : List (Action Unit) :=
  [Action.submit _ add (7, 35), Action.submit _ boom (), Action.signalStop,
   Action.workerDequeue 0, Action.workerDequeue 1, Action.workerRun 1,
   Action.workerRun 0, Action.workerDequeue 0, Action.workerDequeue 1]

/-! ## The invariant of reachable states -/

/-- Invariant kept by every transition of a pool built with `n` workers. -/
structure Inv {σ : Type} (n : Nat) (s : System σ) : Prop where
  size : s.pool.workers_.length = n
  ids : s.submitted.map Task.hid = List.range s.futures.length
  fifo : s.submitted = s.dequeued ++ s.pool.tasks_
  part : List.Perm s.dequeued (s.executed ++ inflight s.pool.workers_)
  pend : ∀ t ∈ inflight s.pool.workers_ ++ s.pool.tasks_,
    s.futures[t.hid]? = some FutureState.pending
  done : ∀ t ∈ s.executed, ∃ e, s.futures[t.hid]? = some (FutureState.ready (t.bound e).2)
  exit : Worker.exited ∈ s.pool.workers_ → s.pool.stop_ = true ∧ s.pool.tasks_ = []
  nocrash : Worker.crashed ∉ s.pool.workers_

/-! ## Basic facts -/

theorem spawnWorkers_ok {σ : Type} (slots k : Nat) (ws : List (Worker σ)) (c : Nat)
    (h : c + k ≤ slots) :
    spawnWorkers slots k (ws, c) = (some (ws ++ List.replicate k Worker.waiting), c + k) := by
  induction k generalizing ws c with
  | zero => simp [spawnWorkers]
  | succ k ih =>
    have hc : c < slots := by omega
    simp only [spawnWorkers, hc, ↓reduceIte]
    rw [ih (ws ++ [Worker.waiting]) (c + 1) (by omega)]
    refine Prod.ext ?_ ?_
    · simp [List.replicate_succ]
    · simp only
      omega

theorem spawnWorkers_fail {σ : Type} (slots k : Nat) (ws : List (Worker σ)) (c : Nat)
    (hle : c ≤ slots) (h : slots < c + k) : (spawnWorkers slots k (ws, c)).1 = none := by
  induction k generalizing ws c with
  | zero => omega
  | succ k ih =>
    by_cases hc : c < slots
    · simp only [spawnWorkers, hc, ↓reduceIte]
      exact ih _ _ (by omega) (by omega)
    · simp [spawnWorkers, hc]

theorem create_built {σ : Type} (L : Limits) (n : Nat) (h0 : 0 < n) (h1 : n ≤ L.max_size)
    (h2 : n ≤ L.alloc_slots) (h3 : n ≤ L.thread_slots) :
    (ThreadPool.create L n : Except ConstructionFailure (ThreadPool σ) × Nat) =
      (Except.ok { stop_ := false, tasks_ := [], workers_ := List.replicate n Worker.waiting },
        n) := by
  have hn : n ≠ 0 := Nat.pos_iff_ne_zero.1 h0
  simp [ThreadPool.create, hn, Nat.not_lt.2 h1, Nat.not_lt.2 h2,
    spawnWorkers_ok L.thread_slots n ([] : List (Worker σ)) 0 (by omega)]

theorem create_within {σ : Type} (L : Limits) (n : Nat) (p : ThreadPool σ)
    (hc : (ThreadPool.create L n).1 = Except.ok p) :
    0 < n ∧ n ≤ L.max_size ∧ n ≤ L.alloc_slots ∧ n ≤ L.thread_slots := by
  unfold ThreadPool.create at hc
  by_cases h0 : n = 0
  · simp [h0] at hc
  by_cases h1 : L.max_size < n
  · simp [h0, h1] at hc
  by_cases h2 : L.alloc_slots < n
  · simp [h0, h1, h2] at hc
  by_cases h3 : L.thread_slots < n
  · exfalso
    have hf := spawnWorkers_fail L.thread_slots n ([] : List (Worker σ)) 0 (by omega) (by omega)
    simp only [h0, beq_iff_eq, ↓reduceIte, h1, h2] at hc
    split at hc
    · rename_i heq
      rw [heq] at hf
      simp at hf
    · simp at hc
    · simp at hc
  · exact ⟨Nat.pos_of_ne_zero h0, by omega, by omega, by omega⟩

theorem create_ok {σ : Type} (L : Limits) (n : Nat) (p : ThreadPool σ)
    (hc : (ThreadPool.create L n).1 = Except.ok p) :
    ∃ k, n = k + 1 ∧
      p = { stop_ := false, tasks_ := [], workers_ := Worker.waiting :: List.replicate k Worker.waiting } := by
  obtain ⟨h0, h1, h2, h3⟩ := create_within L n p hc
  rw [create_built L n h0 h1 h2 h3] at hc
  cases n with
  | zero => omega
  | succ k =>
    refine ⟨k, rfl, ?_⟩
    simp only [Except.ok.injEq] at hc
    rw [← hc, List.replicate_succ]

theorem inflight_set_running {σ : Type} (ws : List (Worker σ)) (i : Nat) (t : Task σ)
    (h : ws[i]? = some Worker.waiting) :
    List.Perm (inflight (ws.set i (Worker.running t))) (t :: inflight ws) := by
  induction ws generalizing i with
  | nil => simp at h
  | cons w ws ih =>
    cases i with
    | zero =>
      simp only [List.getElem?_cons_zero, Option.some.injEq] at h
      subst h
      simp [inflight]
    | succ i =>
      simp only [List.getElem?_cons_succ] at h
      have := ih i h
      cases w <;> simp only [List.set_cons_succ, inflight] <;> try exact this
      exact (List.Perm.cons _ this).trans (List.Perm.swap _ _ _)

theorem inflight_set_waiting {σ : Type} (ws : List (Worker σ)) (i : Nat) (t : Task σ)
    (h : ws[i]? = some (Worker.running t)) :
    List.Perm (inflight ws) (t :: inflight (ws.set i Worker.waiting)) := by
  induction ws generalizing i with
  | nil => simp at h
  | cons w ws ih =>
    cases i with
    | zero =>
      simp only [List.getElem?_cons_zero, Option.some.injEq] at h
      subst h
      simp [inflight]
    | succ i =>
      simp only [List.getElem?_cons_succ] at h
      have := ih i h
      cases w <;> simp only [List.set_cons_succ, inflight] <;> try exact this
      exact (List.Perm.cons _ this).trans (List.Perm.swap _ _ _)

theorem inflight_set_exited {σ : Type} (ws : List (Worker σ)) (i : Nat)
    (h : ws[i]? = some Worker.waiting) :
    inflight (ws.set i Worker.exited) = inflight ws := by
  induction ws generalizing i with
  | nil => simp at h
  | cons w ws ih =>
    cases i with
    | zero =>
      simp only [List.getElem?_cons_zero, Option.some.injEq] at h
      subst h
      simp [inflight]
    | succ i =>
      simp only [List.getElem?_cons_succ] at h
      have := ih i h
      cases w <;> simp only [List.set_cons_succ, inflight, this]

theorem inflight_replicate {σ : Type} (k : Nat) :
    inflight (List.replicate k (Worker.waiting : Worker σ)) = [] := by
  induction k with
  | zero => rfl
  | succ k ih => simpa [List.replicate_succ, inflight] using ih

theorem mem_inflight_of_getElem {σ : Type} (ws : List (Worker σ)) (i : Nat) (t : Task σ)
    (h : ws[i]? = some (Worker.running t)) : t ∈ inflight ws :=
  (inflight_set_waiting ws i t h).symm.subset (List.mem_cons_self _ _)

/-! ## Every transition keeps the invariant -/

theorem Inv.perm_all {σ : Type} {n : Nat} {s : System σ} (h : Inv n s) :
    List.Perm s.submitted (s.executed ++ inflight s.pool.workers_ ++ s.pool.tasks_) := by
  rw [h.fifo]
  exact List.Perm.append_right _ h.part

theorem Inv.nodup_ids {σ : Type} {n : Nat} {s : System σ} (h : Inv n s) :
    (s.submitted.map Task.hid).Nodup := by
  rw [h.ids]
  exact List.nodup_range _

theorem Inv.nodup_live {σ : Type} {n : Nat} {s : System σ} (h : Inv n s) :
    ((inflight s.pool.workers_ ++ s.pool.tasks_).map Task.hid).Nodup := by
  have h1 : ((s.executed ++ inflight s.pool.workers_ ++ s.pool.tasks_).map Task.hid).Nodup :=
    ((h.perm_all.map Task.hid).nodup_iff).1 h.nodup_ids
  rw [List.append_assoc, List.map_append] at h1
  exact h1.of_append_right

theorem inv_boot {σ : Type} (L : Limits) (n : Nat) (p : ThreadPool σ) (env : σ)
    (hc : (ThreadPool.create L n).1 = Except.ok p) : Inv n (System.boot p env) := by
  obtain ⟨k, rfl, rfl⟩ := create_ok L n p hc
  refine ⟨?_, ?_, ?_, ?_, ?_, ?_, ?_, ?_⟩ <;>
    simp [System.boot, inflight, inflight_replicate]

theorem inv_submit {σ A : Type} {n : Nat} {s : System σ} (f : A → Callable σ) (args : A)
    (h : Inv n s) : Inv n (submit f args s).2 := by
  unfold submit
  by_cases hs : s.pool.stop_ = true
  · simpa [hs] using h
  · simp only [hs, Bool.false_eq_true, ↓reduceIte]
    refine ⟨h.size, ?_, ?_, h.part, ?_, ?_, ?_, h.nocrash⟩
    · simp [List.range_succ, h.ids]
    · simp [h.fifo]
    · intro t ht
      simp only [← List.append_assoc, List.mem_append, List.mem_singleton] at ht
      rcases ht with ht | rfl
      · have := h.pend t (List.mem_append.2 ht)
        have hlt : t.hid < s.futures.length := by
          rcases List.getElem?_eq_some_iff.1 this with ⟨hlt, _⟩
          exact hlt
        simpa [List.getElem?_append_left hlt] using this
      · simp
    · intro t ht
      obtain ⟨e, he⟩ := h.done t ht
      have hlt : t.hid < s.futures.length := by
        rcases List.getElem?_eq_some_iff.1 he with ⟨hlt, _⟩
        exact hlt
      exact ⟨e, by simpa [List.getElem?_append_left hlt] using he⟩
    · intro hex
      exact absurd (h.exit hex).1 hs

theorem inv_signalStop {σ : Type} {n : Nat} {s : System σ} (h : Inv n s) :
    Inv n (signalStop s) :=
  ⟨h.size, h.ids, h.fifo, h.part, h.pend, h.done, fun hex => ⟨rfl, (h.exit hex).2⟩, h.nocrash⟩

theorem worker_loop_dequeue_nil {σ : Type} (b : Bool) (ws : List (Worker σ)) :
    worker_loop_dequeue { stop_ := b, tasks_ := [], workers_ := ws } =
      (if b then Dequeue.terminate else Dequeue.blocked,
        { stop_ := b, tasks_ := [], workers_ := ws }) := by
  cases b <;> simp [worker_loop_dequeue, wakeCondition]

theorem worker_loop_dequeue_cons {σ : Type} (b : Bool) (t : Task σ) (rest : List (Task σ))
    (ws : List (Worker σ)) :
    worker_loop_dequeue { stop_ := b, tasks_ := t :: rest, workers_ := ws } =
      (Dequeue.job t, { stop_ := b, tasks_ := rest, workers_ := ws }) := by
  cases b <;> simp [worker_loop_dequeue, wakeCondition]

theorem mem_set_of_ne {σ : Type} {ws : List (Worker σ)} {i : Nat} {v w : Worker σ}
    (hne : w ≠ v) (h : w ∈ ws.set i v) : w ∈ ws := by
  rcases List.mem_or_eq_of_mem_set h with h | h
  · exact h
  · exact absurd h hne

theorem getElem?_set_same_ne {α : Type} {l : List α} {j : Nat} {v w : α} (hv : v ≠ w) :
    (l.set j v)[j]? ≠ some w := by
  rw [List.getElem?_set_self']
  cases l[j]? with
  | none => simp
  | some x => simpa using hv

theorem inv_workerDequeue {σ : Type} {n : Nat} {s : System σ} (i : Nat) (h : Inv n s) :
    Inv n (workerDequeue i s) := by
  obtain ⟨⟨stop, tasks, ws⟩, futs, env, sub, deq, exe⟩ := s
  unfold workerDequeue
  cases hw : ws[i]? with
  | none => simpa [hw] using h
  | some w =>
    cases w with
    | running t => simpa [hw] using h
    | exited => simpa [hw] using h
    | crashed => simpa [hw] using h
    | waiting =>
      cases tasks with
      | nil =>
        cases stop with
        | false => simpa [hw, worker_loop_dequeue_nil] using h
        | true =>
          simp only [hw, worker_loop_dequeue_nil, ↓reduceIte]
          refine ⟨?_, h.ids, h.fifo, ?_, ?_, h.done, fun _ => ⟨rfl, rfl⟩, ?_⟩
          · simpa using h.size
          · simpa [inflight_set_exited ws i hw] using h.part
          · simpa [inflight_set_exited ws i hw] using h.pend
          · exact fun hc => h.nocrash (mem_set_of_ne (by simp) hc)
      | cons t rest =>
        simp only [hw, worker_loop_dequeue_cons]
        have hp := inflight_set_running ws i t hw
        refine ⟨?_, h.ids, ?_, ?_, ?_, h.done, ?_, ?_⟩
        · simpa using h.size
        · simpa using h.fifo
        · have h1 : List.Perm (deq ++ [t]) (t :: (exe ++ inflight ws)) :=
            List.perm_append_singleton t deq |>.trans (List.Perm.cons t h.part)
          refine h1.trans ?_
          exact (List.perm_middle.symm).trans (List.Perm.append_left exe hp.symm)
        · intro t1 ht1
          apply h.pend t1
          simp only [List.mem_append] at ht1 ⊢
          rcases ht1 with ht1 | ht1
          · rcases List.mem_cons.1 (hp.subset ht1) with rfl | h2
            · exact Or.inr (List.mem_cons_self _ _)
            · exact Or.inl h2
          · exact Or.inr (List.mem_cons_of_mem _ ht1)
        · intro hex
          have := (h.exit (mem_set_of_ne (by simp) hex)).2
          simp at this
        · exact fun hc => h.nocrash (mem_set_of_ne (by simp) hc)

theorem invokeJob_pending {σ : Type} (t : Task σ) (futs : List FutureState) (env : σ)
    (h : futs[t.hid]? = some FutureState.pending) :
    invokeJob t futs env =
      some (futs.set t.hid (FutureState.ready (t.bound env).2), (t.bound env).1) := by
  simp [invokeJob, h]

theorem inv_workerRun {σ : Type} {n : Nat} {s : System σ} (i : Nat) (h : Inv n s) :
    Inv n (workerRun i s) := by
  obtain ⟨⟨stop, tasks, ws⟩, futs, env, sub, deq, exe⟩ := s
  unfold workerRun
  cases hw : ws[i]? with
  | none => simpa [hw] using h
  | some w =>
    cases w with
    | waiting => simpa [hw] using h
    | exited => simpa [hw] using h
    | crashed => simpa [hw] using h
    | running t =>
      have hmem : t ∈ inflight ws := mem_inflight_of_getElem ws i t hw
      have hpend : futs[t.hid]? = some FutureState.pending :=
        h.pend t (List.mem_append_left _ hmem)
      have hlt : t.hid < futs.length := (List.getElem?_eq_some_iff.1 hpend).1
      have hp := inflight_set_waiting ws i t hw
      have hnd : ((t :: inflight (ws.set i Worker.waiting) ++ tasks).map Task.hid).Nodup :=
        (((hp.append_right tasks).map Task.hid).nodup_iff).1 h.nodup_live
      simp only [hw, invokeJob_pending t futs env hpend]
      refine ⟨?_, ?_, h.fifo, ?_, ?_, ?_, ?_, ?_⟩
      · simpa using h.size
      · simpa using h.ids
      · have h1 : List.Perm deq (exe ++ t :: inflight (ws.set i Worker.waiting)) :=
          h.part.trans (List.Perm.append_left exe hp)
        simpa using h1
      · intro t1 ht1
        have hne : t.hid ≠ t1.hid := by
          intro heq
          simp only [List.cons_append, List.map_cons, List.nodup_cons, List.mem_map,
            not_exists, not_and] at hnd
          exact hnd.1 t1 ht1 heq.symm
        have hold : futs[t1.hid]? = some FutureState.pending := by
          apply h.pend t1
          simp only [List.mem_append] at ht1 ⊢
          rcases ht1 with ht1 | ht1
          · exact Or.inl (hp.symm.subset (List.mem_cons_of_mem _ ht1))
          · exact Or.inr ht1
        simpa [List.getElem?_set_ne hne] using hold
      · intro t1 ht1
        rcases List.mem_append.1 ht1 with ht1 | ht1
        · obtain ⟨e, he⟩ := h.done t1 ht1
          have hne : t.hid ≠ t1.hid := by
            intro heq
            rw [← heq, hpend] at he
            simp at he
          exact ⟨e, by simpa [List.getElem?_set_ne hne] using he⟩
        · rw [List.mem_singleton] at ht1
          subst ht1
          exact ⟨env, by simp [hlt]⟩
      · intro hex
        exact h.exit (mem_set_of_ne (by simp) hex)
      · exact fun hc => h.nocrash (mem_set_of_ne (by simp) hc)

theorem inv_step {σ : Type} {n : Nat} {s : System σ} (a : Action σ) (h : Inv n s) :
    Inv n (step s a) := by
  cases a with
  | submit A f args => exact inv_submit f args h
  | workerDequeue i => exact inv_workerDequeue i h
  | workerRun i => exact inv_workerRun i h
  | signalStop => exact inv_signalStop h
  | size => exact h

theorem inv_run {σ : Type} {n : Nat} {s : System σ} (tr : List (Action σ)) (h : Inv n s) :
    Inv n (run s tr) := by
  induction tr generalizing s with
  | nil => exact h
  | cons a tr ih => exact ih (inv_step a h)

theorem inv_reachable {σ : Type} (L : Limits) (n : Nat) (p : ThreadPool σ) (env : σ)
    (tr : List (Action σ)) (hc : (ThreadPool.create L n).1 = Except.ok p) :
    Inv n (run (System.boot p env) tr) :=
  inv_run tr (inv_boot L n p env hc)

/-! ## Case analysis of the worker transitions and frame facts -/

theorem workerDequeue_cases {σ : Type} (i : Nat) (s : System σ) :
    workerDequeue i s = s ∨
    (s.pool.workers_[i]? = some Worker.waiting ∧ s.pool.stop_ = true ∧ s.pool.tasks_ = [] ∧
      workerDequeue i s =
        { s with pool := { s.pool with workers_ := s.pool.workers_.set i Worker.exited } }) ∨
    (s.pool.workers_[i]? = some Worker.waiting ∧ ∃ t rest, s.pool.tasks_ = t :: rest ∧
      workerDequeue i s =
        { s with
          pool := { s.pool with
            tasks_ := rest, workers_ := s.pool.workers_.set i (Worker.running t) }
          dequeued := s.dequeued ++ [t] }) := by
  obtain ⟨⟨stop, tasks, ws⟩, futs, env, sub, deq, exe⟩ := s
  unfold workerDequeue
  cases hw : ws[i]? with
  | none => simp [hw]
  | some w =>
    cases w with
    | running t => simp [hw]
    | exited => simp [hw]
    | crashed => simp [hw]
    | waiting =>
      cases tasks with
      | nil => cases stop <;> simp [hw, worker_loop_dequeue_nil]
      | cons t rest =>
        refine Or.inr (Or.inr ⟨rfl, t, rest, rfl, ?_⟩)
        simp [hw, worker_loop_dequeue_cons]

theorem workerRun_cases {σ : Type} (i : Nat) (s : System σ) :
    workerRun i s = s ∨
    (∃ t, s.pool.workers_[i]? = some (Worker.running t) ∧
      s.futures[t.hid]? = some FutureState.pending ∧
      workerRun i s =
        { s with
          pool := { s.pool with workers_ := s.pool.workers_.set i Worker.waiting }
          futures := s.futures.set t.hid (FutureState.ready (t.bound s.env).2)
          env := (t.bound s.env).1
          executed := s.executed ++ [t] }) ∨
    (∃ t, s.pool.workers_[i]? = some (Worker.running t) ∧
      s.futures[t.hid]? ≠ some FutureState.pending ∧
      workerRun i s =
        { s with pool := { s.pool with workers_ := s.pool.workers_.set i Worker.crashed } }) := by
  obtain ⟨⟨stop, tasks, ws⟩, futs, env, sub, deq, exe⟩ := s
  unfold workerRun
  cases hw : ws[i]? with
  | none => simp [hw]
  | some w =>
    cases w with
    | waiting => simp [hw]
    | exited => simp [hw]
    | crashed => simp [hw]
    | running t =>
      by_cases hp : futs[t.hid]? = some FutureState.pending
      · refine Or.inr (Or.inl ⟨t, rfl, hp, ?_⟩)
        simp [hw, invokeJob_pending t futs env hp]
      · refine Or.inr (Or.inr ⟨t, rfl, hp, ?_⟩)
        have : invokeJob t futs env = none := by
          unfold invokeJob
          split
          · rename_i h
            exact absurd h hp
          · rfl
        simp [hw, this]

theorem submitted_step {σ : Type} (s : System σ) (a : Action σ) :
    s.submitted <+: (step s a).submitted := by
  cases a with
  | submit A f args =>
    show s.submitted <+: (submit f args s).2.submitted
    unfold submit
    by_cases hs : s.pool.stop_ = true
    · simp [hs]
    · simp [hs]
  | workerDequeue i =>
    show s.submitted <+: (workerDequeue i s).submitted
    rcases workerDequeue_cases i s with h | ⟨_, _, _, h⟩ | ⟨_, t, rest, _, h⟩ <;> simp [h]
  | workerRun i =>
    show s.submitted <+: (workerRun i s).submitted
    rcases workerRun_cases i s with h | ⟨t, _, _, h⟩ | ⟨t, _, _, h⟩ <;> simp [h]
  | signalStop => exact List.prefix_refl _
  | size => exact List.prefix_refl _

theorem submitted_run {σ : Type} (s : System σ) (tr : List (Action σ)) :
    s.submitted <+: (run s tr).submitted := by
  induction tr generalizing s with
  | nil => exact List.prefix_refl _
  | cons a tr ih => exact (submitted_step s a).trans (ih (step s a))

theorem exit_step {σ : Type} (s : System σ) (a : Action σ) (i : Nat)
    (h : (step s a).pool.workers_[i]? = some Worker.exited) :
    s.pool.workers_[i]? = some Worker.exited ∨
    (a = Action.workerDequeue i ∧ s.pool.workers_[i]? = some Worker.waiting ∧
      s.pool.stop_ = true ∧ s.pool.tasks_ = []) := by
  cases a with
  | submit A f args =>
    left
    change (submit f args s).2.pool.workers_[i]? = _ at h
    unfold submit at h
    by_cases hs : s.pool.stop_ = true
    · simpa [hs] using h
    · simpa [hs] using h
  | workerDequeue j =>
    change (workerDequeue j s).pool.workers_[i]? = _ at h
    rcases workerDequeue_cases j s with h1 | ⟨hw, hs, ht, h1⟩ | ⟨_, t, rest, _, h1⟩
    · left; rwa [h1] at h
    · by_cases hij : j = i
      · subst hij
        exact Or.inr ⟨rfl, hw, hs, ht⟩
      · left
        rw [h1] at h
        simpa [List.getElem?_set_ne hij] using h
    · left
      rw [h1] at h
      by_cases hij : j = i
      · subst hij
        exact absurd h (getElem?_set_same_ne (by simp))
      · simpa [List.getElem?_set_ne hij] using h
  | workerRun j =>
    left
    change (workerRun j s).pool.workers_[i]? = _ at h
    rcases workerRun_cases j s with h1 | ⟨t, _, _, h1⟩ | ⟨t, _, _, h1⟩
    · rwa [h1] at h
    · rw [h1] at h
      by_cases hij : j = i
      · subst hij
        exact absurd h (getElem?_set_same_ne (by simp))
      · simpa [List.getElem?_set_ne hij] using h
    · rw [h1] at h
      by_cases hij : j = i
      · subst hij
        exact absurd h (getElem?_set_same_ne (by simp))
      · simpa [List.getElem?_set_ne hij] using h
  | signalStop => left; exact h
  | size => left; exact h

/-! ## Submission after shutdown (C1) -/

/-- C1: in every pool state `submit` throws (the `std::runtime_error` that plays the
role of IllegalStateError) exactly when `stop_` is set; a failed `submit` leaves the
whole state, in particular `tasks_` and `stop_`, as it was; and when `stop_` is not
set `submit` succeeds whatever the length of `tasks_`, appending the new task at the
tail and leaving `stop_` unset. -/
theorem C1_submit_fails_iff_stopped {σ A : Type} (f : A → Callable σ) (args : A)
    (s : System σ) :
    ((submit f args s).1 =
        Except.error (PoolError.runtime_error "submit() on stopped ThreadPool") ↔
      s.pool.stop_ = true) ∧
    ((∃ e, (submit f args s).1 = Except.error e) ↔ s.pool.stop_ = true) ∧
    (s.pool.stop_ = true → (submit f args s).2 = s) ∧
    (s.pool.stop_ = false →
      (submit f args s).1 = Except.ok s.futures.length ∧
      (submit f args s).2.pool.tasks_ =
        s.pool.tasks_ ++ [{ hid := s.futures.length, bound := f args }] ∧
      (submit f args s).2.pool.stop_ = false) := by
  unfold submit
  cases hs : s.pool.stop_ <;> simp [hs]

/-- C1 on the pool with two workers: after the stop signal a submit is rejected and the
queue keeps its single task; before it a submit is accepted with one task queued. -/
theorem C1_submit_fails_iff_stopped_witness :
    (submit boom () (run (System.boot (pool2 Unit) ())
        [Action.submit _ add (7, 35), Action.signalStop])).1 =
      Except.error (PoolError.runtime_error "submit() on stopped ThreadPool") ∧
    (submit boom () (run (System.boot (pool2 Unit) ())
        [Action.submit _ add (7, 35), Action.signalStop])).2.pool.tasks_.map Task.hid = [0] ∧
    (submit boom () (run (System.boot (pool2 Unit) ())
        [Action.submit _ add (7, 35)])).1 = Except.ok 1 :=
  ⟨(C1_submit_fails_iff_stopped boom () (run (System.boot (pool2 Unit) ())
      [Action.submit _ add (7, 35), Action.signalStop])).1.2 rfl,
    rfl,
    ((C1_submit_fails_iff_stopped boom () (run (System.boot (pool2 Unit) ())
      [Action.submit _ add (7, 35)])).2.2.2 rfl).1⟩

/-! ## The dequeue step (C7) -/

/-- C7: when the wake condition holds, the critical section of `worker_loop` yields
the terminate signal exactly when `stop_` is set and `tasks_` is empty, and otherwise
removes and returns the head of `tasks_`, leaving the tail in order; `front()` is never
reached on an empty queue; a terminating worker leaves the queue untouched; and when
the wake condition does not hold (queue empty, `stop_` unset) the worker stays blocked
and neither the pool nor the system state changes. -/
theorem C7_dequeue_step {σ : Type} (p : ThreadPool σ) :
    (wakeCondition p = true ↔ (p.stop_ = true ∨ p.tasks_ ≠ [])) ∧
    (wakeCondition p = true →
      (((worker_loop_dequeue p).1 = Dequeue.terminate ↔
          (p.stop_ = true ∧ p.tasks_ = [])) ∧
       ((p.stop_ = true ∧ p.tasks_ = []) → worker_loop_dequeue p = (Dequeue.terminate, p)) ∧
       (¬(p.stop_ = true ∧ p.tasks_ = []) →
          ∃ t rest, p.tasks_ = t :: rest ∧
            worker_loop_dequeue p = (Dequeue.job t, { p with tasks_ := rest })))) ∧
    (worker_loop_dequeue p).1 ≠ Dequeue.undefined ∧
    (∀ t, (worker_loop_dequeue p).1 = Dequeue.job t → p.tasks_.head? = some t) ∧
    (wakeCondition p = false →
      worker_loop_dequeue p = (Dequeue.blocked, p) ∧
      ∀ (s : System σ) (i : Nat), s.pool = p → workerDequeue i s = s) := by
  obtain ⟨stop, tasks, ws⟩ := p
  cases tasks with
  | nil =>
    cases stop
    · refine ⟨by simp [wakeCondition], by simp [wakeCondition], ?_, ?_, ?_⟩
      · simp [worker_loop_dequeue_nil]
      · simp [worker_loop_dequeue_nil]
      · intro _
        refine ⟨by simp [worker_loop_dequeue_nil], ?_⟩
        intro s i hs
        rcases workerDequeue_cases i s with h | ⟨_, h, _⟩ | ⟨_, t, rest, h, _⟩
        · exact h
        · simp [hs] at h
        · simp [hs] at h
    · refine ⟨by simp [wakeCondition], ?_, ?_, ?_, by simp [wakeCondition]⟩
      · intro _
        simp [worker_loop_dequeue_nil]
      · simp [worker_loop_dequeue_nil]
      · simp [worker_loop_dequeue_nil]
  | cons t rest =>
    refine ⟨by simp [wakeCondition], ?_, ?_, ?_, by simp [wakeCondition]⟩
    · intro _
      simp [worker_loop_dequeue_cons]
    · simp [worker_loop_dequeue_cons]
    · simp [worker_loop_dequeue_cons]

/-- C7 on three pools with two workers: stopped with an empty queue, stopped with one
queued task, and running with an empty queue. -/
theorem C7_dequeue_step_witness :
    worker_loop_dequeue
        ({ stop_ := true, tasks_ := [], workers_ := (pool2 Unit).workers_ } : ThreadPool Unit) =
      (Dequeue.terminate, { stop_ := true, tasks_ := [], workers_ := (pool2 Unit).workers_ }) ∧
    (worker_loop_dequeue
        ({ stop_ := true, tasks_ := [{ hid := 0, bound := boom () }],
           workers_ := (pool2 Unit).workers_ } : ThreadPool Unit)).1 ≠ Dequeue.undefined ∧
    worker_loop_dequeue (pool2 Unit) = (Dequeue.blocked, pool2 Unit) :=
  ⟨((C7_dequeue_step
      ({ stop_ := true, tasks_ := [], workers_ := (pool2 Unit).workers_ } :
        ThreadPool Unit)).2.1 rfl).2.1 ⟨rfl, rfl⟩,
    (C7_dequeue_step _).2.2.1,
    ((C7_dequeue_step (pool2 Unit)).2.2.2.2 rfl).1⟩

/-! ## Construction (C8) -/

/-- C8, refuted: on the 64-bit host, constructing a pool with the positive worker count
`SIZE_MAX` does not succeed: `workers_.reserve` throws `std::length_error`, no pool is
returned and no thread is started. -/
theorem C8_counterexample :
    0 < SIZE_MAX ∧
    (ThreadPool.create hostLimits SIZE_MAX :
        Except ConstructionFailure (ThreadPool Unit) × Nat) =
      (Except.error (ConstructionFailure.threw PoolError.length_error), 0) ∧
    ¬ ∃ p : ThreadPool Unit, (ThreadPool.create hostLimits SIZE_MAX).1 = Except.ok p := by
  refine ⟨by decide, rfl, ?_⟩
  rintro ⟨p, hp⟩
  have := (create_within hostLimits SIZE_MAX p hp).2.1
  exact absurd this (by decide)

/-- C8, amended: the constructor throws `std::invalid_argument` exactly when the worker
count is zero, and then no pool is returned and no thread has been started.  For every
positive count that exceeds neither `max_size()` of the worker vector, nor the storage
the allocator can provide, nor the number of threads the host can start, it returns a
pool, has started exactly that many threads, and the pool holds exactly that many
workers, all at the top of `worker_loop`, with an empty queue and `stop_` unset.  For
a count above `max_size()` it throws `std::length_error` with no thread started.  A
pool is returned only for a positive count within these limits (hence at most
`SIZE_MAX`), and then exactly that many threads were started. -/
theorem C8_create {σ : Type} (L : Limits) (n : Nat) :
    ((ThreadPool.create L n : Except ConstructionFailure (ThreadPool σ) × Nat).1 =
        Except.error (ConstructionFailure.threw
          (PoolError.invalid_argument "ThreadPool: num_threads must be > 0")) ↔
      n = 0) ∧
    (n = 0 →
      (ThreadPool.create L n : Except ConstructionFailure (ThreadPool σ) × Nat) =
        (Except.error (ConstructionFailure.threw
          (PoolError.invalid_argument "ThreadPool: num_threads must be > 0")), 0)) ∧
    (0 < n → n ≤ L.max_size → n ≤ L.alloc_slots → n ≤ L.thread_slots →
      ∃ p : ThreadPool σ, ThreadPool.create L n = (Except.ok p, n) ∧
        p.workers_.length = n ∧ p.size = n ∧
        p.workers_ = List.replicate n Worker.waiting ∧
        p.tasks_ = [] ∧ p.stop_ = false) ∧
    (L.max_size < n →
      (ThreadPool.create L n : Except ConstructionFailure (ThreadPool σ) × Nat) =
        (Except.error (ConstructionFailure.threw PoolError.length_error), 0)) ∧
    (∀ p : ThreadPool σ, (ThreadPool.create L n).1 = Except.ok p →
      0 < n ∧ n ≤ L.max_size ∧ n ≤ L.alloc_slots ∧ n ≤ L.thread_slots ∧ n ≤ SIZE_MAX ∧
      (ThreadPool.create L n : Except ConstructionFailure (ThreadPool σ) × Nat).2 = n ∧
      p.workers_.length = n) := by
  refine ⟨?_, ?_, ?_, ?_, ?_⟩
  · constructor
    · intro h
      by_contra h0
      unfold ThreadPool.create at h
      by_cases h1 : L.max_size < n
      · simp [h0, h1] at h
      by_cases h2 : L.alloc_slots < n
      · simp [h0, h1, h2] at h
      simp only [h0, beq_iff_eq, ↓reduceIte, h1, h2] at h
      split at h <;> simp at h
    · intro h
      simp [ThreadPool.create, h]
  · intro h
    simp [ThreadPool.create, h]
  · intro h0 h1 h2 h3
    exact ⟨_, create_built L n h0 h1 h2 h3, by simp [ThreadPool.size]⟩
  · intro h
    have hn : n ≠ 0 := by omega
    simp [ThreadPool.create, hn, h]
  · intro p hp
    obtain ⟨h0, h1, h2, h3⟩ := create_within L n p hp
    have hb : (ThreadPool.create L n : Except ConstructionFailure (ThreadPool σ) × Nat) = _ :=
      create_built L n h0 h1 h2 h3
    rw [hb] at hp
    simp only [Except.ok.injEq] at hp
    refine ⟨h0, h1, h2, h3, le_trans h1 L.max_size_le, by rw [hb], ?_⟩
    rw [← hp]
    simp

/-- C8 amended, for the counts 0 and 3 on the 64-bit host: the first construction throws
`std::invalid_argument` with no thread started, the second starts three threads. -/
theorem C8_create_witness :
    (ThreadPool.create hostLimits 0 : Except ConstructionFailure (ThreadPool Unit) × Nat) =
      (Except.error (ConstructionFailure.threw
        (PoolError.invalid_argument "ThreadPool: num_threads must be > 0")), 0) ∧
    (ThreadPool.create hostLimits 3 :
      Except ConstructionFailure (ThreadPool Unit) × Nat).2 = 3 :=
  ⟨(C8_create hostLimits 0).2.1 rfl,
    match (C8_create hostLimits 3).2.2.1 (by decide) (by decide) (by decide) (by decide) with
    | ⟨_, h, _⟩ => congrArg Prod.snd h⟩

/-! ## FIFO order (C2) -/

theorem log_step {σ : Type} (s : System σ) (a : Action σ) :
    ((step s a).submitted = s.submitted ∧ (step s a).dequeued = s.dequeued ∧
      (step s a).pool.tasks_ = s.pool.tasks_) ∨
    (∃ t, (step s a).submitted = s.submitted ++ [t] ∧ (step s a).dequeued = s.dequeued ∧
      (step s a).pool.tasks_ = s.pool.tasks_ ++ [t]) ∨
    (∃ t rest, s.pool.tasks_ = t :: rest ∧ (step s a).submitted = s.submitted ∧
      (step s a).dequeued = s.dequeued ++ [t] ∧ (step s a).pool.tasks_ = rest) := by
  cases a with
  | submit A f args =>
    by_cases hs : s.pool.stop_ = true
    · left; simp [step, submit, hs]
    · right; left
      exact ⟨⟨s.futures.length, f args⟩, by simp [step, submit, hs]⟩
  | workerDequeue i =>
    rcases workerDequeue_cases i s with h | ⟨_, _, _, h⟩ | ⟨_, t, rest, ht, h⟩
    · left; simp [step, h]
    · left; simp [step, h]
    · right; right
      exact ⟨t, rest, ht, by simp [step, h]⟩
  | workerRun i =>
    left
    rcases workerRun_cases i s with h | ⟨t, _, _, h⟩ | ⟨t, _, _, h⟩ <;> simp [step, h]
  | signalStop => left; simp [step, signalStop]
  | size => left; simp [step]

/-- C2: in every state reached from a freshly constructed pool by any interleaving of
submits, worker steps and the stop signal, the tasks dequeued so far (by all workers
together, in dequeue order) followed by the tasks still in `tasks_` are exactly the
tasks submitted so far, in submission order; so the dequeue sequence is an initial
segment of the submission sequence.  Each transition changes the logs only by
appending a submitted task at the tail of `tasks_` or by moving the head of `tasks_`
to the dequeue log. -/
theorem C2_fifo_order {σ : Type} (L : Limits) (n : Nat) (p : ThreadPool σ) (env : σ)
    (tr : List (Action σ)) (hc : (ThreadPool.create L n).1 = Except.ok p) :
    (run (System.boot p env) tr).dequeued ++ (run (System.boot p env) tr).pool.tasks_ =
      (run (System.boot p env) tr).submitted ∧
    (run (System.boot p env) tr).dequeued <+: (run (System.boot p env) tr).submitted ∧
    (∀ (s : System σ) (a : Action σ),
      ((step s a).submitted = s.submitted ∧ (step s a).dequeued = s.dequeued ∧
        (step s a).pool.tasks_ = s.pool.tasks_) ∨
      (∃ t, (step s a).submitted = s.submitted ++ [t] ∧ (step s a).dequeued = s.dequeued ∧
        (step s a).pool.tasks_ = s.pool.tasks_ ++ [t]) ∨
      (∃ t rest, s.pool.tasks_ = t :: rest ∧ (step s a).submitted = s.submitted ∧
        (step s a).dequeued = s.dequeued ++ [t] ∧ (step s a).pool.tasks_ = rest)) := by
  have h := (inv_reachable L n p env tr hc).fifo
  exact ⟨h.symm, ⟨_, h.symm⟩, log_step⟩

/-- C2, on a run of the pool with two workers: three submits interleaved with two
dequeues by different workers. -/
theorem C2_fifo_order_witness :
    (ThreadPool.create hostLimits 2).1 = Except.ok (pool2 Unit) ∧
    ((run (System.boot (pool2 Unit) ())
        [Action.submit _ add (1, 2), Action.submit _ boom (), Action.workerDequeue 1,
         Action.submit _ add (3, 4), Action.workerDequeue 0]).dequeued.map Task.hid = [0, 1] ∧
     (run (System.boot (pool2 Unit) ())
        [Action.submit _ add (1, 2), Action.submit _ boom (), Action.workerDequeue 1,
         Action.submit _ add (3, 4), Action.workerDequeue 0]).dequeued <+:
     (run (System.boot (pool2 Unit) ())
        [Action.submit _ add (1, 2), Action.submit _ boom (), Action.workerDequeue 1,
         Action.submit _ add (3, 4), Action.workerDequeue 0]).submitted) :=
  ⟨rfl, rfl, (C2_fifo_order hostLimits 2 (pool2 Unit) () _ rfl).2.1⟩

/-! ## Size (C9) -/

/-- C9: for a pool constructed with `n` workers, `size()` returns `n` right after
construction and in every state reached by any sequence of submits (accepted or
rejected), worker steps, `size()` queries and the stop signal; a `size()` query does
not change the state, so two consecutive queries return the same value. -/
theorem C9_size_constant {σ : Type} (L : Limits) (n : Nat) (p : ThreadPool σ) (env : σ)
    (tr : List (Action σ)) (hc : (ThreadPool.create L n).1 = Except.ok p) :
    0 < n ∧ p.size = n ∧
    (run (System.boot p env) tr).pool.size = n ∧
    (∀ s : System σ, step s Action.size = s ∧ run s [Action.size, Action.size] = s ∧
      (step s Action.size).pool.size = s.pool.size) := by
  refine ⟨?_, (inv_boot L n p env hc).size, (inv_reachable L n p env tr hc).size,
    fun s => ⟨rfl, rfl, rfl⟩⟩
  exact (create_within L n p hc).1

/-- C9, on a run of the pool with two workers that contains an accepted submit, worker
steps, the stop signal, a rejected submit and two size queries. -/
theorem C9_size_constant_witness :
    (ThreadPool.create hostLimits 2).1 = Except.ok (pool2 Unit) ∧
    (run (System.boot (pool2 Unit) ())
      [Action.submit _ add (7, 35), Action.workerDequeue 0, Action.size, Action.workerRun 0,
       Action.signalStop, Action.submit _ boom (), Action.workerDequeue 1, Action.size,
       Action.size]).pool.size = 2 :=
  ⟨rfl, (C9_size_constant hostLimits 2 (pool2 Unit) () _ rfl).2.2.1⟩

/-! ## Shutdown (C6, C10) -/

theorem allExited_inflight {σ : Type} (ws : List (Worker σ)) (h : allExited ws = true) :
    inflight ws = [] := by
  induction ws with
  | nil => rfl
  | cons w ws ih => cases w <;> simp_all [allExited, inflight]

theorem allExited_mem {σ : Type} (ws : List (Worker σ)) (h : allExited ws = true)
    (hne : ws ≠ []) : Worker.exited ∈ ws := by
  cases ws with
  | nil => exact absurd rfl hne
  | cons w ws => cases w <;> simp_all [allExited]

theorem Inv.ready_of_executed {σ : Type} {n : Nat} {s : System σ} (h : Inv n s)
    (hp : List.Perm s.executed s.submitted) : allReady s := by
  intro k hk
  have hmem : k ∈ s.submitted.map Task.hid := by
    rw [h.ids]
    exact List.mem_range.2 hk
  obtain ⟨t, ht, rfl⟩ := List.mem_map.1 hmem
  obtain ⟨e, he⟩ := h.done t (hp.symm.subset ht)
  cases hr : (t.bound e).2 <;> simp [System.Get, he, hr, FutureState.get]

theorem Inv.drained_of_ready {σ : Type} {n : Nat} {s : System σ} (h : Inv n s)
    (hr : allReady s) : inflight s.pool.workers_ ++ s.pool.tasks_ = [] := by
  cases hl : inflight s.pool.workers_ ++ s.pool.tasks_ with
  | nil => rfl
  | cons t l =>
    exfalso
    have hp := h.pend t (by rw [hl]; exact List.mem_cons_self _ _)
    have hlt : t.hid < s.futures.length := (List.getElem?_eq_some_iff.1 hp).1
    have := hr t.hid hlt
    simp [System.Get, hp, FutureState.get] at this

/-- C10: a worker leaves its loop only through a pass of the critical section made in
a state where `stop_` is set and `tasks_` is empty; hence in every reachable state of a
constructed pool in which some worker has exited, `stop_` is set and the queue is
empty, and in every reachable state in which all workers have exited (the state in
which the destructor returns) the queue is empty, no job is in flight, every task ever
accepted has been dequeued and executed, and every handle is ready. -/
theorem C10_shutdown_drains {σ : Type} (L : Limits) (n : Nat) (p : ThreadPool σ) (env : σ)
    (tr : List (Action σ)) (hc : (ThreadPool.create L n).1 = Except.ok p) :
    (∀ (s : System σ) (a : Action σ) (i : Nat),
      (step s a).pool.workers_[i]? = some Worker.exited →
      s.pool.workers_[i]? ≠ some Worker.exited →
      a = Action.workerDequeue i ∧ s.pool.workers_[i]? = some Worker.waiting ∧
        s.pool.stop_ = true ∧ s.pool.tasks_ = []) ∧
    (Worker.exited ∈ (run (System.boot p env) tr).pool.workers_ →
      (run (System.boot p env) tr).pool.stop_ = true ∧
      (run (System.boot p env) tr).pool.tasks_ = []) ∧
    (allExited (run (System.boot p env) tr).pool.workers_ = true →
      (run (System.boot p env) tr).pool.stop_ = true ∧
      (run (System.boot p env) tr).pool.tasks_ = [] ∧
      inflight (run (System.boot p env) tr).pool.workers_ = [] ∧
      (run (System.boot p env) tr).dequeued = (run (System.boot p env) tr).submitted ∧
      List.Perm (run (System.boot p env) tr).executed (run (System.boot p env) tr).submitted ∧
      allReady (run (System.boot p env) tr)) := by
  have hinv := inv_reachable L n p env tr hc
  refine ⟨?_, hinv.exit, ?_⟩
  · intro s a i h hne
    rcases exit_step s a i h with h1 | h1
    · exact absurd h1 hne
    · exact h1
  · intro hall
    have hn : 0 < n := (create_within L n p hc).1
    have hne : (run (System.boot p env) tr).pool.workers_ ≠ [] := by
      intro h0
      have := hinv.size
      rw [h0] at this
      simp at this
      omega
    have hex := hinv.exit (allExited_mem _ hall hne)
    have hin := allExited_inflight _ hall
    have hfifo := hinv.fifo
    have hpart := hinv.part
    rw [hex.2, List.append_nil] at hfifo
    rw [hin, List.append_nil] at hpart
    have hperm : List.Perm (run (System.boot p env) tr).executed
        (run (System.boot p env) tr).submitted := by
      rw [hfifo]
      exact hpart.symm
    exact ⟨hex.1, hex.2, hin, hfifo.symm, hperm, hinv.ready_of_executed hperm⟩

/-- C10, on a run of the pool with two workers: two tasks are submitted, stop is
signalled while both are queued, the workers drain the queue and exit. -/
theorem C10_shutdown_drains_witness :
    (ThreadPool.create hostLimits 2).1 = Except.ok (pool2 Unit) ∧
    allExited (run (System.boot (pool2 Unit) ()) drainTrace).pool.workers_ = true ∧
    (run (System.boot (pool2 Unit) ()) drainTrace).pool.tasks_ = [] ∧
    (run (System.boot (pool2 Unit) ()) drainTrace).executed.map Task.hid = [1, 0] ∧
    allReady (run (System.boot (pool2 Unit) ()) drainTrace) :=
  ⟨rfl, rfl, ((C10_shutdown_drains hostLimits 2 (pool2 Unit) () drainTrace rfl).2.2 rfl).2.1, rfl,
    ((C10_shutdown_drains hostLimits 2 (pool2 Unit) () drainTrace rfl).2.2 rfl).2.2.2.2.2⟩

/-! ## Progress: the workers can always finish the submitted tasks -/

theorem workerRun_running {σ : Type} (s : System σ) (i : Nat) (t : Task σ)
    (hw : s.pool.workers_[i]? = some (Worker.running t))
    (hp : s.futures[t.hid]? = some FutureState.pending) :
    workerRun i s =
      { s with
        pool := { s.pool with workers_ := s.pool.workers_.set i Worker.waiting }
        futures := s.futures.set t.hid (FutureState.ready (t.bound s.env).2)
        env := (t.bound s.env).1
        executed := s.executed ++ [t] } := by
  unfold workerRun
  simp [hw, invokeJob_pending t s.futures s.env hp]

theorem exists_running {σ : Type} (ws : List (Worker σ)) (h : inflight ws ≠ []) :
    ∃ (i : Nat) (t : Task σ), ws[i]? = some (Worker.running t) := by
  induction ws with
  | nil => exact absurd rfl h
  | cons w ws ih =>
    cases w with
    | running t => exact ⟨0, t, by simp⟩
    | waiting =>
      obtain ⟨i, t, hi⟩ := ih (by simpa [inflight] using h)
      exact ⟨i + 1, t, by simpa using hi⟩
    | exited =>
      obtain ⟨i, t, hi⟩ := ih (by simpa [inflight] using h)
      exact ⟨i + 1, t, by simpa using hi⟩
    | crashed =>
      obtain ⟨i, t, hi⟩ := ih (by simpa [inflight] using h)
      exact ⟨i + 1, t, by simpa using hi⟩

theorem head_waiting {σ : Type} (ws : List (Worker σ)) (hne : ws ≠ [])
    (hin : inflight ws = []) (hex : Worker.exited ∉ ws) (hcr : Worker.crashed ∉ ws) :
    ws[0]? = some Worker.waiting := by
  cases ws with
  | nil => exact absurd rfl hne
  | cons w ws =>
    cases w with
    | waiting => simp
    | running t => simp [inflight] at hin
    | exited => simp at hex
    | crashed => simp at hcr

theorem workerDequeue_waiting_cons {σ : Type} (s : System σ) (i : Nat) (t : Task σ)
    (rest : List (Task σ)) (hw : s.pool.workers_[i]? = some Worker.waiting)
    (hq : s.pool.tasks_ = t :: rest) :
    workerDequeue i s =
      { s with
        pool := { s.pool with
          tasks_ := rest, workers_ := s.pool.workers_.set i (Worker.running t) }
        dequeued := s.dequeued ++ [t] } := by
  obtain ⟨⟨stop, tasks, ws⟩, futs, env, sub, deq, exe⟩ := s
  simp only at hq hw
  subst hq
  simp [workerDequeue, hw, worker_loop_dequeue_cons]

theorem drain_exists {σ : Type} {n : Nat} (hn : 0 < n) (m : Nat) :
    ∀ s : System σ, Inv n s →
      (inflight s.pool.workers_).length + 2 * s.pool.tasks_.length = m →
      ∃ tr : List (Action σ),
        (∀ a ∈ tr, (∃ i, a = Action.workerDequeue i) ∨ (∃ i, a = Action.workerRun i)) ∧
        allReady (run s tr) := by
  induction m with
  | zero =>
    intro s h hm
    have h1 : inflight s.pool.workers_ = [] := List.length_eq_zero.1 (by omega)
    have h2 : s.pool.tasks_ = [] := List.length_eq_zero.1 (by omega)
    refine ⟨[], by simp, ?_⟩
    have hp := h.perm_all
    rw [h1, h2] at hp
    exact h.ready_of_executed (by simpa using hp.symm)
  | succ m ih =>
    intro s h hm
    by_cases hin : inflight s.pool.workers_ = []
    · cases hq : s.pool.tasks_ with
      | nil => simp [hin, hq] at hm
      | cons t rest =>
        have hex : Worker.exited ∉ s.pool.workers_ := by
          intro hx
          have := (h.exit hx).2
          rw [hq] at this
          simp at this
        have hne : s.pool.workers_ ≠ [] := by
          intro h0
          have := h.size
          rw [h0] at this
          simp at this
          omega
        have hw := head_waiting _ hne hin hex h.nocrash
        have hstep := workerDequeue_waiting_cons s 0 t rest hw hq
        have hinv : Inv n (workerDequeue 0 s) := inv_workerDequeue 0 h
        have hlen := (inflight_set_running s.pool.workers_ 0 t hw).length_eq
        obtain ⟨tr, htr, hr⟩ := ih (workerDequeue 0 s) hinv (by
          rw [hstep]
          simp only [hlen, List.length_cons, hin, List.length_nil]
          rw [hin, hq] at hm
          simp only [List.length_cons, List.length_nil] at hm
          omega)
        refine ⟨Action.workerDequeue 0 :: tr, ?_, hr⟩
        intro a ha
        rcases List.mem_cons.1 ha with rfl | ha
        · exact Or.inl ⟨0, rfl⟩
        · exact htr a ha
    · obtain ⟨i, t, hw⟩ := exists_running _ hin
      have hp := h.pend t (List.mem_append_left _ (mem_inflight_of_getElem _ i t hw))
      have hstep := workerRun_running s i t hw hp
      have hinv : Inv n (workerRun i s) := inv_workerRun i h
      have hlen := (inflight_set_waiting s.pool.workers_ i t hw).length_eq
      obtain ⟨tr, htr, hr⟩ := ih (workerRun i s) hinv (by
        rw [hstep]
        simp only
        rw [hlen] at hm
        simp only [List.length_cons] at hm
        omega)
      refine ⟨Action.workerRun i :: tr, ?_, hr⟩
      intro a ha
      rcases List.mem_cons.1 ha with rfl | ha
      · exact Or.inr ⟨i, rfl⟩
      · exact htr a ha

/-! ## Results and failures travel through the handle (C4, C5) -/

theorem Inv.task_of_hid {σ : Type} {n : Nat} {s : System σ} (h : Inv n s) (t1 t2 : Task σ)
    (h1 : t1 ∈ s.submitted) (h2 : t2 ∈ s.submitted) (heq : t1.hid = t2.hid) : t1 = t2 :=
  List.inj_on_of_nodup_map h.nodup_ids h1 h2 heq

theorem Inv.handle_state {σ : Type} {n : Nat} {s : System σ} (h : Inv n s) (job : Task σ)
    (hjob : job ∈ s.submitted) :
    (job.hid ∈ s.executed.map Task.hid →
      ∃ e, s.futures[job.hid]? = some (FutureState.ready (job.bound e).2)) ∧
    (job.hid ∉ s.executed.map Task.hid →
      s.futures[job.hid]? = some FutureState.pending ∧
      job ∈ inflight s.pool.workers_ ++ s.pool.tasks_) := by
  constructor
  · intro hx
    obtain ⟨t, ht, hid⟩ := List.mem_map.1 hx
    have hts : t ∈ s.submitted :=
      h.perm_all.symm.subset (by simp [ht])
    have := h.task_of_hid t job hts hjob hid
    subst this
    exact h.done t ht
  · intro hx
    have hm := h.perm_all.subset hjob
    rw [List.append_assoc, List.mem_append] at hm
    rcases hm with hm | hm
    · exact absurd (List.mem_map_of_mem _ hm) hx
    · exact ⟨h.pend job hm, hm⟩

theorem handle_after_submit {σ A : Type} (L : Limits) (n : Nat) (p : ThreadPool σ) (env : σ)
    (tr1 : List (Action σ)) (f : A → Callable σ) (args : A) (o : Outcome)
    (hc : (ThreadPool.create L n).1 = Except.ok p)
    (hs : (run (System.boot p env) tr1).pool.stop_ = false)
    (ho : ∀ e, (f args e).2 = o) (tr2 : List (Action σ)) :
    (submit f args (run (System.boot p env) tr1)).1 =
      Except.ok (run (System.boot p env) tr1).futures.length ∧
    Inv n (run (submit f args (run (System.boot p env) tr1)).2 tr2) ∧
    ((run (System.boot p env) tr1).futures.length ∈
        (run (submit f args (run (System.boot p env) tr1)).2 tr2).executed.map Task.hid →
      (run (submit f args (run (System.boot p env) tr1)).2 tr2).futures[
        (run (System.boot p env) tr1).futures.length]? = some (FutureState.ready o)) ∧
    ((run (System.boot p env) tr1).futures.length ∉
        (run (submit f args (run (System.boot p env) tr1)).2 tr2).executed.map Task.hid →
      (run (submit f args (run (System.boot p env) tr1)).2 tr2).futures[
        (run (System.boot p env) tr1).futures.length]? = some FutureState.pending ∧
      (run (System.boot p env) tr1).futures.length ∈
        (inflight (run (submit f args (run (System.boot p env) tr1)).2 tr2).pool.workers_ ++
          (run (submit f args (run (System.boot p env) tr1)).2 tr2).pool.tasks_).map Task.hid) ∧
    (∀ t ∈ inflight (run (submit f args (run (System.boot p env) tr1)).2 tr2).pool.workers_,
      t.hid = (run (System.boot p env) tr1).futures.length → ∀ e, (t.bound e).2 = o) := by
  generalize hs0 : run (System.boot p env) tr1 = s at *
  have hinv0 : Inv n s := hs0 ▸ inv_reachable L n p env tr1 hc
  have hinv1 : Inv n (submit f args s).2 := inv_submit f args hinv0
  have hinv := inv_run tr2 hinv1
  have hjob1 : (⟨s.futures.length, f args⟩ : Task σ) ∈ (submit f args s).2.submitted := by
    simp [submit, hs]
  have hjob : (⟨s.futures.length, f args⟩ : Task σ) ∈ (run (submit f args s).2 tr2).submitted :=
    (submitted_run _ tr2).subset hjob1
  have hst := hinv.handle_state _ hjob
  refine ⟨by simp [submit, hs], hinv, ?_, ?_, ?_⟩
  · intro hx
    obtain ⟨e, he⟩ := hst.1 hx
    rw [he, ho e]
  · intro hx
    exact ⟨(hst.2 hx).1, List.mem_map.2 ⟨_, (hst.2 hx).2, rfl⟩⟩
  · intro t ht hid e
    have hts : t ∈ (run (submit f args s).2 tr2).submitted :=
      hinv.perm_all.symm.subset (by simp [ht])
    have := hinv.task_of_hid t _ hts hjob hid
    subst this
    exact ho e

theorem handle_delivers {σ A : Type} (L : Limits) (n : Nat) (p : ThreadPool σ) (env : σ)
    (tr1 : List (Action σ)) (f : A → Callable σ) (args : A) (o : Outcome)
    (hc : (ThreadPool.create L n).1 = Except.ok p)
    (hs : (run (System.boot p env) tr1).pool.stop_ = false)
    (ho : ∀ e, (f args e).2 = o) :
    ∃ tr2 : List (Action σ),
      (∀ a ∈ tr2, (∃ i, a = Action.workerDequeue i) ∨ (∃ i, a = Action.workerRun i)) ∧
      (run (submit f args (run (System.boot p env) tr1)).2 tr2).futures[
        (run (System.boot p env) tr1).futures.length]? = some (FutureState.ready o) := by
  have hn : 0 < n := by
    obtain ⟨k, rfl, _⟩ := create_ok L n p hc
    exact Nat.succ_pos k
  have hinv1 : Inv n (submit f args (run (System.boot p env) tr1)).2 :=
    inv_submit f args (inv_reachable L n p env tr1 hc)
  obtain ⟨tr2, htr, hr⟩ := drain_exists hn _ _ hinv1 rfl
  obtain ⟨_, hinv, h1, h2, _⟩ := handle_after_submit L n p env tr1 f args o hc hs ho tr2
  refine ⟨tr2, htr, ?_⟩
  by_cases hx : (run (System.boot p env) tr1).futures.length ∈
      (run (submit f args (run (System.boot p env) tr1)).2 tr2).executed.map Task.hid
  · exact h1 hx
  · exfalso
    have hp := (h2 hx).1
    have := hr _ (List.getElem?_eq_some_iff.1 hp).1
    simp [System.Get, hp, FutureState.get] at this

theorem Inv.run_here {σ : Type} {n : Nat} {s : System σ} (h : Inv n s) (i : Nat) (t : Task σ)
    (hw : s.pool.workers_[i]? = some (Worker.running t)) :
    (workerRun i s).pool.workers_[i]? = some Worker.waiting ∧
    (workerRun i s).futures[t.hid]? = some (FutureState.ready (t.bound s.env).2) ∧
    (workerRun i s).pool.stop_ = s.pool.stop_ ∧
    (workerRun i s).pool.tasks_ = s.pool.tasks_ ∧
    (∀ j, j ≠ i → (workerRun i s).pool.workers_[j]? = s.pool.workers_[j]?) := by
  have hp := h.pend t (List.mem_append_left _ (mem_inflight_of_getElem _ i t hw))
  have hlt : t.hid < s.futures.length := (List.getElem?_eq_some_iff.1 hp).1
  have hi : i < s.pool.workers_.length := (List.getElem?_eq_some_iff.1 hw).1
  rw [workerRun_running s i t hw hp]
  refine ⟨by simp [hi], by simp [hlt], rfl, rfl, ?_⟩
  intro j hj
  simp [List.getElem?_set_ne (Ne.symm hj)]

/-- C4: let `f(args)` return normally with value `v`.  Submitting `f` with `args` to a
pool that has not been stopped returns a handle; in every later state `Get` on that
handle delivers `v` if the task has been executed and otherwise blocks, the task then
being still queued or in flight; the worker that holds the task makes the handle
deliver `v` by running it; and some schedule of worker steps makes `Get` deliver `v`.
In particular `submit(add, 7, 35)` on a fresh pool,
followed by worker 0 dequeuing and running the task, makes `Get` deliver 42. -/
theorem C4_value_round_trip {σ A : Type} (L : Limits) (n : Nat) (p : ThreadPool σ) (env : σ)
    (tr1 : List (Action σ)) (f : A → Callable σ) (args : A) (v : Val)
    (hc : (ThreadPool.create L n).1 = Except.ok p)
    (hs : (run (System.boot p env) tr1).pool.stop_ = false)
    (hv : ∀ e, (f args e).2 = Outcome.value v) :
    (submit f args (run (System.boot p env) tr1)).1 =
      Except.ok (run (System.boot p env) tr1).futures.length ∧
    (∀ tr2 : List (Action σ),
      ((run (System.boot p env) tr1).futures.length ∈
          (run (submit f args (run (System.boot p env) tr1)).2 tr2).executed.map Task.hid →
        (run (submit f args (run (System.boot p env) tr1)).2 tr2).Get
          (run (System.boot p env) tr1).futures.length = some (Except.ok v)) ∧
      ((run (System.boot p env) tr1).futures.length ∉
          (run (submit f args (run (System.boot p env) tr1)).2 tr2).executed.map Task.hid →
        (run (submit f args (run (System.boot p env) tr1)).2 tr2).Get
          (run (System.boot p env) tr1).futures.length = none ∧
        (run (System.boot p env) tr1).futures.length ∈
          (inflight (run (submit f args (run (System.boot p env) tr1)).2 tr2).pool.workers_ ++
            (run (submit f args (run (System.boot p env) tr1)).2 tr2).pool.tasks_).map
              Task.hid) ∧
      (∀ i t,
        (run (submit f args (run (System.boot p env) tr1)).2 tr2).pool.workers_[i]? =
          some (Worker.running t) →
        t.hid = (run (System.boot p env) tr1).futures.length →
        (workerRun i (run (submit f args (run (System.boot p env) tr1)).2 tr2)).Get
          (run (System.boot p env) tr1).futures.length = some (Except.ok v))) ∧
    (∃ tr2 : List (Action σ),
      (∀ a ∈ tr2, (∃ i, a = Action.workerDequeue i) ∨ (∃ i, a = Action.workerRun i)) ∧
      (run (submit f args (run (System.boot p env) tr1)).2 tr2).Get
        (run (System.boot p env) tr1).futures.length = some (Except.ok v)) ∧
    (run (System.boot p env)
      [Action.submit _ add (7, 35), Action.workerDequeue 0, Action.workerRun 0]).Get 0 =
        some (Except.ok (Val.int 42)) := by
  refine ⟨(handle_after_submit L n p env tr1 f args _ hc hs hv []).1, ?_, ?_, ?_⟩
  rotate_left
  · obtain ⟨tr2, htr, hr⟩ := handle_delivers L n p env tr1 f args _ hc hs hv
    exact ⟨tr2, htr, by simp [System.Get, hr, FutureState.get]⟩
  rotate_left
  · intro tr2
    obtain ⟨_, hinv, h1, h2, h3⟩ := handle_after_submit L n p env tr1 f args _ hc hs hv tr2
    refine ⟨?_, ?_, ?_⟩
    · intro hx
      simp [System.Get, h1 hx, FutureState.get]
    · intro hx
      exact ⟨by simp [System.Get, (h2 hx).1, FutureState.get], (h2 hx).2⟩
    · intro i t hw hid
      have hr := (hinv.run_here i t hw).2.1
      rw [hid, h3 t (mem_inflight_of_getElem _ i t hw) hid] at hr
      simp [System.Get, hr, FutureState.get]
  · obtain ⟨k, rfl, rfl⟩ := create_ok L n p hc
    simp [run, step, submit, workerDequeue, worker_loop_dequeue_cons, workerRun, invokeJob,
      System.boot, System.Get, FutureState.get, add, wrap32]

/-- C4 on the pool with two workers: `submit(add, 7, 35)` after an earlier task, with
worker 1 running it. -/
theorem C4_value_round_trip_witness :
    (ThreadPool.create hostLimits 2).1 = Except.ok (pool2 Unit) ∧
    (run (System.boot (pool2 Unit) ()) [Action.submit _ boom ()]).pool.stop_ = false ∧
    (run (submit add (7, 35) (run (System.boot (pool2 Unit) ()) [Action.submit _ boom ()])).2
      [Action.workerDequeue 0, Action.workerDequeue 1, Action.workerRun 1]).Get 1 =
        some (Except.ok (Val.int 42)) :=
  ⟨rfl, rfl,
    ((C4_value_round_trip hostLimits 2 (pool2 Unit) () [Action.submit _ boom ()] add (7, 35) (Val.int 42)
      rfl rfl (fun _ => rfl)).2.1
        [Action.workerDequeue 0, Action.workerDequeue 1, Action.workerRun 1]).1 (by decide)⟩

/-- C5: let `f(args)` throw the failure `err`.  Submitting `f` with `args` to a pool
that has not been stopped returns a handle; in every later state `Get` on that handle
re-raises exactly `err` (same kind, same message) if the task has been executed and
otherwise blocks; the worker that runs the task stores `err` in the handle and is back
at the top of its loop afterwards, with `stop_`, `tasks_` and the other workers
untouched; no worker is ever taken down; and some schedule of worker steps makes `Get`
re-raise `err`.  In particular a task throwing
`std::runtime_error("boom")` makes `Get` re-raise `std::runtime_error("boom")`. -/
theorem C5_failure_round_trip {σ A : Type} (L : Limits) (n : Nat) (p : ThreadPool σ) (env : σ)
    (tr1 : List (Action σ)) (f : A → Callable σ) (args : A) (err : Failure)
    (hc : (ThreadPool.create L n).1 = Except.ok p)
    (hs : (run (System.boot p env) tr1).pool.stop_ = false)
    (he : ∀ e, (f args e).2 = Outcome.failure err) :
    (submit f args (run (System.boot p env) tr1)).1 =
      Except.ok (run (System.boot p env) tr1).futures.length ∧
    (∀ tr2 : List (Action σ),
      ((run (System.boot p env) tr1).futures.length ∈
          (run (submit f args (run (System.boot p env) tr1)).2 tr2).executed.map Task.hid →
        (run (submit f args (run (System.boot p env) tr1)).2 tr2).Get
          (run (System.boot p env) tr1).futures.length = some (Except.error err)) ∧
      ((run (System.boot p env) tr1).futures.length ∉
          (run (submit f args (run (System.boot p env) tr1)).2 tr2).executed.map Task.hid →
        (run (submit f args (run (System.boot p env) tr1)).2 tr2).Get
          (run (System.boot p env) tr1).futures.length = none) ∧
      Worker.crashed ∉ (run (submit f args (run (System.boot p env) tr1)).2 tr2).pool.workers_ ∧
      (∀ i t,
        (run (submit f args (run (System.boot p env) tr1)).2 tr2).pool.workers_[i]? =
          some (Worker.running t) →
        t.hid = (run (System.boot p env) tr1).futures.length →
        (workerRun i (run (submit f args (run (System.boot p env) tr1)).2 tr2)).Get
          (run (System.boot p env) tr1).futures.length = some (Except.error err) ∧
        (workerRun i (run (submit f args (run (System.boot p env) tr1)).2 tr2)).pool.workers_[i]? =
          some Worker.waiting ∧
        (workerRun i (run (submit f args (run (System.boot p env) tr1)).2 tr2)).pool.stop_ =
          (run (submit f args (run (System.boot p env) tr1)).2 tr2).pool.stop_ ∧
        (workerRun i (run (submit f args (run (System.boot p env) tr1)).2 tr2)).pool.tasks_ =
          (run (submit f args (run (System.boot p env) tr1)).2 tr2).pool.tasks_ ∧
        (∀ j, j ≠ i →
          (workerRun i
            (run (submit f args (run (System.boot p env) tr1)).2 tr2)).pool.workers_[j]? =
          (run (submit f args (run (System.boot p env) tr1)).2 tr2).pool.workers_[j]?))) ∧
    (∃ tr2 : List (Action σ),
      (∀ a ∈ tr2, (∃ i, a = Action.workerDequeue i) ∨ (∃ i, a = Action.workerRun i)) ∧
      (run (submit f args (run (System.boot p env) tr1)).2 tr2).Get
        (run (System.boot p env) tr1).futures.length = some (Except.error err)) ∧
    ((run (System.boot p env)
        [Action.submit _ boom (), Action.workerDequeue 0, Action.workerRun 0]).Get 0 =
        some (Except.error { kind := "std::runtime_error", message := "boom" }) ∧
     (run (System.boot p env)
        [Action.submit _ boom (), Action.workerDequeue 0, Action.workerRun 0]).pool.workers_[0]? =
        some Worker.waiting) := by
  refine ⟨(handle_after_submit L n p env tr1 f args _ hc hs he []).1, ?_, ?_, ?_⟩
  rotate_left
  · obtain ⟨tr2, htr, hr⟩ := handle_delivers L n p env tr1 f args _ hc hs he
    exact ⟨tr2, htr, by simp [System.Get, hr, FutureState.get]⟩
  rotate_left
  · intro tr2
    obtain ⟨_, hinv, h1, h2, h3⟩ := handle_after_submit L n p env tr1 f args _ hc hs he tr2
    refine ⟨?_, ?_, hinv.nocrash, ?_⟩
    · intro hx
      simp [System.Get, h1 hx, FutureState.get]
    · intro hx
      simp [System.Get, (h2 hx).1, FutureState.get]
    · intro i t hw hid
      obtain ⟨r1, r2, r3, r4, r5⟩ := hinv.run_here i t hw
      rw [hid, h3 t (mem_inflight_of_getElem _ i t hw) hid] at r2
      exact ⟨by simp [System.Get, r2, FutureState.get], r1, r3, r4, r5⟩
  · obtain ⟨k, rfl, rfl⟩ := create_ok L n p hc
    simp [run, step, submit, workerDequeue, worker_loop_dequeue_cons, workerRun, invokeJob,
      System.boot, System.Get, FutureState.get, boom]

/-- C5 on the pool with two workers: the failing task of Test 3 is submitted after an
earlier task and run by worker 1, which is then back at the top of its loop. -/
theorem C5_failure_round_trip_witness :
    (ThreadPool.create hostLimits 2).1 = Except.ok (pool2 Unit) ∧
    (run (System.boot (pool2 Unit) ()) [Action.submit _ add (7, 35)]).pool.stop_ = false ∧
    (run (submit boom () (run (System.boot (pool2 Unit) ()) [Action.submit _ add (7, 35)])).2
      [Action.workerDequeue 0, Action.workerDequeue 1, Action.workerRun 1]).Get 1 =
        some (Except.error { kind := "std::runtime_error", message := "boom" }) :=
  ⟨rfl, rfl,
    ((C5_failure_round_trip hostLimits 2 (pool2 Unit) () [Action.submit _ add (7, 35)] boom ()
      { kind := "std::runtime_error", message := "boom" }
      rfl rfl (fun _ => rfl)).2.1
        [Action.workerDequeue 0, Action.workerDequeue 1, Action.workerRun 1]).1 (by decide)⟩

/-! ## Exactly-once execution and the stress-test counters (C3) -/

theorem wrap64_add_left (a b : Int) : wrap64 (wrap64 a + b) = wrap64 (a + b) := by
  unfold wrap64
  omega

theorem wrap64_of_inInt64 (x : Int) (h : inInt64 x) : wrap64 x = x := by
  unfold inInt64 at h
  unfold wrap64
  omega

theorem sumResults_append_pending (fs : List FutureState) :
    sumResults (fs ++ [FutureState.pending]) = sumResults fs := by
  induction fs with
  | nil => rfl
  | cons x fs ih =>
    cases x with
    | pending => simpa [sumResults] using ih
    | ready o =>
      cases o with
      | failure e => simpa [sumResults] using ih
      | value v => cases v <;> simpa [sumResults] using ih

theorem sumResults_set (fs : List FutureState) (i : Nat) (v : Int)
    (h : fs[i]? = some FutureState.pending) :
    sumResults (fs.set i (FutureState.ready (Outcome.value (Val.int v)))) =
      sumResults fs + v := by
  induction fs generalizing i with
  | nil => simp at h
  | cons x fs ih =>
    cases i with
    | zero =>
      simp only [List.getElem?_cons_zero, Option.some.injEq] at h
      subst h
      simp [sumResults, add_comm]
    | succ i =>
      simp only [List.getElem?_cons_succ] at h
      have := ih i h
      cases x with
      | pending => simpa [sumResults] using this
      | ready o =>
        cases o with
        | failure e => simpa [sumResults] using this
        | value w =>
          cases w with
          | unit => simpa [sumResults] using this
          | int u =>
            simp only [List.set_cons_succ, sumResults, this]
            ring

theorem acct_step {σ : Type} {n : Nat} {s : System σ} (view : σ → Int) (δ : Task σ → Int)
    (c0 : Int) (a : Action σ) (h : Inv n s)
    (hP : ∀ t ∈ s.submitted, ∀ e, view (t.bound e).1 = wrap64 (view e + δ t))
    (hA : view s.env = wrap64 (c0 + (s.executed.map δ).sum)) :
    view (step s a).env = wrap64 (c0 + ((step s a).executed.map δ).sum) := by
  cases a with
  | submit A f args =>
    by_cases hs : s.pool.stop_ = true <;> simpa [step, submit, hs] using hA
  | workerDequeue i =>
    rcases workerDequeue_cases i s with h1 | ⟨_, _, _, h1⟩ | ⟨_, t, rest, _, h1⟩ <;>
      simpa [step, h1] using hA
  | workerRun i =>
    rcases workerRun_cases i s with h1 | ⟨t, hw, _, h1⟩ | ⟨t, _, _, h1⟩
    · simpa [step, h1] using hA
    · have hts : t ∈ s.submitted :=
        h.perm_all.symm.subset (by simp [mem_inflight_of_getElem _ i t hw])
      simp only [step, h1, List.map_append, List.map_cons, List.map_nil, List.sum_append,
        List.sum_cons, List.sum_nil, add_zero]
      rw [hP t hts s.env, hA, wrap64_add_left, add_assoc]
    · simpa [step, h1] using hA
  | signalStop => simpa [step, signalStop] using hA
  | size => simpa [step] using hA

theorem acct_run {σ : Type} {n : Nat} (view : σ → Int) (δ : Task σ → Int) (c0 : Int)
    (tr : List (Action σ)) (s : System σ) (h : Inv n s)
    (hP : ∀ t ∈ (run s tr).submitted, ∀ e, view (t.bound e).1 = wrap64 (view e + δ t))
    (hA : view s.env = wrap64 (c0 + (s.executed.map δ).sum)) :
    view (run s tr).env = wrap64 (c0 + ((run s tr).executed.map δ).sum) := by
  induction tr generalizing s with
  | nil => exact hA
  | cons a tr ih =>
    have hsub : ∀ t ∈ s.submitted, t ∈ (run s (a :: tr)).submitted := fun t ht =>
      (submitted_run (step s a) tr).subset ((submitted_step s a).subset ht)
    exact ih (step s a) (inv_step a h) hP
      (acct_step view δ c0 a h (fun t ht => hP t (hsub t ht)) hA)

theorem results_step {σ : Type} {n : Nat} {s : System σ} (δ : Task σ → Int)
    (a : Action σ) (h : Inv n s)
    (hQ : ∀ t ∈ s.submitted, ∀ e, (t.bound e).2 = Outcome.value (Val.int (δ t)))
    (hR : sumResults s.futures = (s.executed.map δ).sum) :
    sumResults (step s a).futures = ((step s a).executed.map δ).sum := by
  cases a with
  | submit A f args =>
    by_cases hs : s.pool.stop_ = true
    · simpa [step, submit, hs] using hR
    · simpa [step, submit, hs, sumResults_append_pending] using hR
  | workerDequeue i =>
    rcases workerDequeue_cases i s with h1 | ⟨_, _, _, h1⟩ | ⟨_, t, rest, _, h1⟩ <;>
      simpa [step, h1] using hR
  | workerRun i =>
    rcases workerRun_cases i s with h1 | ⟨t, hw, hp, h1⟩ | ⟨t, _, _, h1⟩
    · simpa [step, h1] using hR
    · have hts : t ∈ s.submitted :=
        h.perm_all.symm.subset (by simp [mem_inflight_of_getElem _ i t hw])
      simp only [step, h1, List.map_append, List.map_cons, List.map_nil, List.sum_append,
        List.sum_cons, List.sum_nil, add_zero]
      rw [hQ t hts s.env, sumResults_set _ _ _ hp, hR]
    · simpa [step, h1] using hR
  | signalStop => simpa [step, signalStop] using hR
  | size => simpa [step] using hR

theorem results_run {σ : Type} {n : Nat} (δ : Task σ → Int)
    (tr : List (Action σ)) (s : System σ) (h : Inv n s)
    (hQ : ∀ t ∈ (run s tr).submitted, ∀ e, (t.bound e).2 = Outcome.value (Val.int (δ t)))
    (hR : sumResults s.futures = (s.executed.map δ).sum) :
    sumResults (run s tr).futures = ((run s tr).executed.map δ).sum := by
  induction tr generalizing s with
  | nil => exact hR
  | cons a tr ih =>
    have hsub : ∀ t ∈ s.submitted, t ∈ (run s (a :: tr)).submitted := fun t ht =>
      (submitted_run (step s a) tr).subset ((submitted_step s a).subset ht)
    exact ih (step s a) (inv_step a h) hQ
      (results_step δ a h (fun t ht => hQ t (hsub t ht)) hR)

/-- C3: in every reachable state of a constructed pool the submitted tasks are exactly
the executed ones, the ones in flight and the ones still queued (a permutation, with
pairwise distinct handles, so no task is lost, dequeued twice or executed twice), and
there is one handle per submitted task.  Once all handles are ready nothing is queued
or in flight and the executed tasks are exactly the submitted ones, and from every
reachable state some schedule of worker steps makes all handles ready.  Consequently, for
a counter `view` of the captured memory that starts in the 64-bit range: if every
submitted task raises the counter by one (64-bit `fetch_add`), then once all `N`
handles are ready the counter has been raised by exactly `N`; and if every submitted
task adds its local sum to the counter and returns that sum, then the counter has been
raised by exactly the sum of the results held by the handles, each handle delivering
an integer once all are ready. -/
theorem C3_exactly_once {σ : Type} (L : Limits) (n : Nat) (p : ThreadPool σ) (env : σ)
    (tr : List (Action σ)) (hc : (ThreadPool.create L n).1 = Except.ok p) :
    List.Perm (run (System.boot p env) tr).submitted
      ((run (System.boot p env) tr).executed ++
        inflight (run (System.boot p env) tr).pool.workers_ ++
        (run (System.boot p env) tr).pool.tasks_) ∧
    ((run (System.boot p env) tr).submitted.map Task.hid).Nodup ∧
    ((run (System.boot p env) tr).dequeued.map Task.hid).Nodup ∧
    ((run (System.boot p env) tr).executed.map Task.hid).Nodup ∧
    (run (System.boot p env) tr).futures.length =
      (run (System.boot p env) tr).submitted.length ∧
    (allReady (run (System.boot p env) tr) →
      (run (System.boot p env) tr).pool.tasks_ = [] ∧
      inflight (run (System.boot p env) tr).pool.workers_ = [] ∧
      List.Perm (run (System.boot p env) tr).executed (run (System.boot p env) tr).submitted ∧
      (run (System.boot p env) tr).executed.length =
        (run (System.boot p env) tr).futures.length) ∧
    (∃ tr2 : List (Action σ),
      (∀ a ∈ tr2, (∃ i, a = Action.workerDequeue i) ∨ (∃ i, a = Action.workerRun i)) ∧
      allReady (run (run (System.boot p env) tr) tr2)) ∧
    (∀ view : σ → Int, inInt64 (view env) →
      (∀ t ∈ (run (System.boot p env) tr).submitted,
        ∀ e, view (t.bound e).1 = wrap64 (view e + 1)) →
      allReady (run (System.boot p env) tr) →
      view (run (System.boot p env) tr).env =
        wrap64 (view env + (run (System.boot p env) tr).futures.length) ∧
      (inInt64 (view env + (run (System.boot p env) tr).futures.length) →
        view (run (System.boot p env) tr).env =
          view env + (run (System.boot p env) tr).futures.length)) ∧
    (∀ view : σ → Int, inInt64 (view env) →
      (∀ t ∈ (run (System.boot p env) tr).submitted,
        ∃ loc : Int, ∀ e, view (t.bound e).1 = wrap64 (view e + loc) ∧
          (t.bound e).2 = Outcome.value (Val.int loc)) →
      view (run (System.boot p env) tr).env =
        wrap64 (view env + sumResults (run (System.boot p env) tr).futures) ∧
      (inInt64 (view env + sumResults (run (System.boot p env) tr).futures) →
        view (run (System.boot p env) tr).env =
          view env + sumResults (run (System.boot p env) tr).futures) ∧
      (allReady (run (System.boot p env) tr) →
        ∀ h, h < (run (System.boot p env) tr).futures.length →
          ∃ loc : Int, (run (System.boot p env) tr).Get h = some (Except.ok (Val.int loc)))) := by
  have hboot := inv_boot L n p env hc
  have hinv := inv_reachable L n p env tr hc
  have hn : 0 < n := by
    obtain ⟨k, rfl, _⟩ := create_ok L n p hc
    exact Nat.succ_pos k
  generalize hs : run (System.boot p env) tr = s at *
  have hlen : s.futures.length = s.submitted.length := by
    have := congrArg List.length hinv.ids
    simpa using this.symm
  have hex : ((s.executed ++ inflight s.pool.workers_ ++ s.pool.tasks_).map Task.hid).Nodup :=
    ((hinv.perm_all.map Task.hid).nodup_iff).1 hinv.nodup_ids
  have hdrain : allReady s →
      s.pool.tasks_ = [] ∧ inflight s.pool.workers_ = [] ∧
        List.Perm s.executed s.submitted ∧ s.executed.length = s.futures.length := by
    intro hr
    have h0 := List.append_eq_nil.1 (hinv.drained_of_ready hr)
    have hp : List.Perm s.executed s.submitted := by
      have := hinv.perm_all
      rw [h0.1, h0.2] at this
      simpa using this.symm
    exact ⟨h0.2, h0.1, hp, by rw [hlen]; exact hp.length_eq⟩
  refine ⟨hinv.perm_all, hinv.nodup_ids, ?_, ?_, hlen, hdrain,
    drain_exists hn _ s hinv rfl, ?_, ?_⟩
  · have := hinv.nodup_ids
    rw [hinv.fifo, List.map_append] at this
    exact this.of_append_left
  · rw [List.map_append, List.map_append] at hex
    exact hex.of_append_left.of_append_left
  · intro view h0 hP hr
    have hA : view (System.boot p env).env =
        wrap64 (view env + (((System.boot p env).executed).map (fun _ => (1 : Int))).sum) := by
      simp [System.boot, wrap64_of_inInt64 _ h0]
    have := acct_run view (fun _ => (1 : Int)) (view env) tr (System.boot p env) hboot
      (by rw [hs]; exact hP) hA
    rw [hs] at this
    have hcount : (s.executed.map (fun _ => (1 : Int))).sum = (s.futures.length : Int) := by
      rw [← (hdrain hr).2.2.2]
      simp
    rw [hcount] at this
    exact ⟨this, fun hin => by rw [this, wrap64_of_inInt64 _ hin]⟩
  · intro view h0 hP
    have hP1 : ∀ t ∈ s.submitted, ∀ e,
        view (t.bound e).1 = wrap64 (view e + intResult (t.bound env).2) ∧
        (t.bound e).2 = Outcome.value (Val.int (intResult (t.bound env).2)) := by
      intro t ht e
      obtain ⟨loc, hloc⟩ := hP t ht
      have : intResult (t.bound env).2 = loc := by
        rw [(hloc env).2]
        rfl
      rw [this]
      exact hloc e
    have hA : view (System.boot p env).env =
        wrap64 (view env +
          (((System.boot p env).executed).map (fun t => intResult (t.bound env).2)).sum) := by
      simp [System.boot, wrap64_of_inInt64 _ h0]
    have h1 := acct_run view (fun t => intResult (t.bound env).2) (view env) tr
      (System.boot p env) hboot (by rw [hs]; exact fun t ht e => (hP1 t ht e).1) hA
    have h2 := results_run (fun t => intResult (t.bound env).2) tr
      (System.boot p env) hboot (by rw [hs]; exact fun t ht e => (hP1 t ht e).2)
      (by simp [System.boot, sumResults])
    rw [hs] at h1 h2
    rw [← h2] at h1
    refine ⟨h1, fun hin => by rw [h1, wrap64_of_inInt64 _ hin], ?_⟩
    intro hr k hk
    have hmem : k ∈ s.submitted.map Task.hid := by
      rw [hinv.ids]
      exact List.mem_range.2 hk
    obtain ⟨t, ht, rfl⟩ := List.mem_map.1 hmem
    obtain ⟨e, he⟩ := hinv.done t ((hdrain hr).2.2.1.symm.subset ht)
    exact ⟨intResult (t.bound env).2, by
      simp [System.Get, he, (hP1 t ht e).2, FutureState.get]⟩

/-- C3 on the pool with two workers and the lambdas of the stress test: after two
increment tasks have run the counter `sum` is 2, and after two checksum tasks have run
`checksum` equals the sum 6 + 10 of the two results. -/
theorem C3_exactly_once_witness :
    (ThreadPool.create hostLimits 2).1 = Except.ok (pool2 TestEnv) ∧
    allReady (run (System.boot (pool2 TestEnv) env0) counterTrace) ∧
    (run (System.boot (pool2 TestEnv) env0) counterTrace).futures.length = 2 ∧
    (run (System.boot (pool2 TestEnv) env0) counterTrace).env.sum =
      env0.sum + (run (System.boot (pool2 TestEnv) env0) counterTrace).futures.length ∧
    sumResults (run (System.boot (pool2 TestEnv) env0) checksumTrace).futures = 16 ∧
    (run (System.boot (pool2 TestEnv) env0) checksumTrace).env.checksum =
      env0.checksum + sumResults (run (System.boot (pool2 TestEnv) env0) checksumTrace).futures := by
  have hf1 : (run (System.boot (pool2 TestEnv) env0) counterTrace).futures =
      [FutureState.ready (Outcome.value Val.unit),
       FutureState.ready (Outcome.value Val.unit)] := rfl
  have hs1 : (run (System.boot (pool2 TestEnv) env0) counterTrace).submitted =
      [{ hid := 0, bound := incrementTask () }, { hid := 1, bound := incrementTask () }] := rfl
  have hs2 : (run (System.boot (pool2 TestEnv) env0) checksumTrace).submitted =
      [{ hid := 0, bound := checksumTask 3 0 () },
       { hid := 1, bound := checksumTask 4 1 () }] := rfl
  have hr1 : allReady (run (System.boot (pool2 TestEnv) env0) counterTrace) := by decide
  have hsum : sumResults (run (System.boot (pool2 TestEnv) env0) checksumTrace).futures = 16 :=
    by decide
  refine ⟨rfl, hr1, rfl, ?_, hsum, ?_⟩
  · refine ((C3_exactly_once hostLimits 2 (pool2 TestEnv) env0 counterTrace rfl).2.2.2.2.2.2.2.1
      TestEnv.sum (by simp [inInt64, env0]) ?_ hr1).2 (by rw [hf1]; simp [inInt64, env0])
    intro t ht e
    rw [hs1] at ht
    simp only [List.mem_cons, List.mem_singleton, List.not_mem_nil, or_false] at ht
    rcases ht with rfl | rfl <;> rfl
  · refine ((C3_exactly_once hostLimits 2 (pool2 TestEnv) env0 checksumTrace rfl).2.2.2.2.2.2.2.2
      TestEnv.checksum (by simp [inInt64, env0]) ?_).2.1 (by rw [hsum]; simp [inInt64, env0])
    intro t ht
    rw [hs2] at ht
    simp only [List.mem_cons, List.mem_singleton, List.not_mem_nil, or_false] at ht
    rcases ht with rfl | rfl
    · exact ⟨localSum 3, fun e => ⟨rfl, rfl⟩⟩
    · exact ⟨localSum 4, fun e => ⟨rfl, rfl⟩⟩

end TP
